import Mathlib

/-!
# Verification of `pkg/placement/map-types.go`

A shallow embedding of the reactive map / diff / observer library of
`pkg/placement/map-types.go`, followed by theorems about its operations.

Conventions of the embedding.

* A Go interface value is a record of its methods.  A method with side effects
  takes the state it acts on and returns the new state.
* A Go result `(Val, bool)` is the Lean pair `Val × Bool`.
* A Go `error` is `Option GoError`; `nil` is `none`.
* The zero value of `Val` is `default` of an `Inhabited Val` instance.
* Go's `==` and `!=` on a `comparable` type are Lean's decidable equality.  Types
  whose `==` is not reflexive (a floating-point NaN) or may panic (an interface
  holding an uncomparable dynamic type) are outside the embedding.
* A snapshot handed to a function does not change while the function runs: the
  receiver's state is separate from the maps being read.
* A Go func value is a function that may act on a state; a nil func is `none`.
  Receivers that a combinator calls in turn act on one shared state, so that the
  order of their calls can be observed in a shared log.
-/

namespace Placement

/-! ## Primitives declared outside `map-types.go` -/

/-- Pair is the ordered record with fields `First` and `Second` that a map hands
to a visitor.  It is declared in another file of the package. -/
structure Pair (A B : Type) where
  First : A
  Second : B
deriving DecidableEq, Repr

/-- GoError stands for the non-nil values of the Go type `error`.  The package
variable `errStop` is the reserved value a visitor returns to stop a visit. -/
inductive GoError where
  | errStop
  | other (msg : String)
deriving DecidableEq, Repr

/-- Modelled from the spec: the method `Visit` of the interface `Visitable`, which is
declared outside `map-types.go`.  The producer pushes its elements, in its own
order, through the visitor; it halts and returns the visitor's error as soon as
the visitor returns a non-nil error, and returns nil if the visitor never
errors.  The producer is given by the sequence `elems` it pushes, and the state
`ρ` is whatever the visitor closure mutates. -/
def Visit {Elt ρ : Type} (elems : List Elt) (visitor : Elt → ρ → Option GoError × ρ)
    (s : ρ) : Option GoError × ρ :=
  match elems with
  | [] => (none, s)
  | e :: rest =>
    match visitor e s with
    | (some err, s1) => (some err, s1)
    | (none, s1) => Visit rest visitor s1

/-! ## Interfaces -/

/-- Map is the read-only view `Map[Key, Val]`: `Len`, `LenIsCheap`, `Get`, and the
sequence `elems` that its `Visit` pushes through a visitor.  The embedded
interface `Emptyable` is used by no function of this file and is left out. -/
structure Map (Key Val : Type) where
  Len : Int
  LenIsCheap : Bool
  Get : Key → Val × Bool
  elems : List (Pair Key Val)

/-- MappingReceiver is the interface `MappingReceiver[Key, Val]` over a receiver
whose state has type `ρ`. -/
structure MappingReceiver (Key Val ρ : Type) where
  Put : Key → Val → ρ → ρ
  Delete : Key → ρ → ρ

/-- MutableMap is the interface `MutableMap[Key, Val]`: a `MappingReceiver` whose
state `σ` can also be read as a `Map`. -/
structure MutableMap (Key Val σ : Type) extends MappingReceiver Key Val σ where
  view : σ → Map Key Val

/-- MapChangeReceiver is the interface `MapChangeReceiver[Key, Val]` over a
receiver whose state has type `ρ`.  `Update` is given key, old value, new value;
`DeleteWithFinal` is given key and last value. -/
structure MapChangeReceiver (Key Val ρ : Type) where
  Create : Key → Val → ρ → ρ
  Update : Key → Val → Val → ρ → ρ
  DeleteWithFinal : Key → Val → ρ → ρ

/-- Modelled from the spec: the interface `SetChangeReceiver[Key]`, which is declared
outside `map-types.go`.  It is the set-change observer with the two signals
`Add(k)` and `Remove(k)`; whatever the methods return is discarded by the code
of this file. -/
structure SetChangeReceiver (Key ω : Type) where
  Add : Key → ω → ω
  Remove : Key → ω → ω

/-! ## Adapters -/

/-- MappingReceiverFuncs is a convenient constructor of `MappingReceiver` from two
funcs.  A nil func is `none`; a func acts on the state `ω`. -/
structure MappingReceiverFuncs (Key Val ω : Type) where
  OnPut : Option (Key → Val → ω → ω)
  OnDelete : Option (Key → ω → ω)

namespace MappingReceiverFuncs

variable {Key Val ω : Type}

/-- The method `Put`: calls `OnPut` unless it is nil. -/
def Put (mrf : MappingReceiverFuncs Key Val ω) (key : Key) (val : Val) (w : ω) : ω :=
  match mrf.OnPut with
  | some onPut => onPut key val w
  | none => w

/-- The method `Delete`: calls `OnDelete` unless it is nil. -/
def Delete (mrf : MappingReceiverFuncs Key Val ω) (key : Key) (w : ω) : ω :=
  match mrf.OnDelete with
  | some onDelete => onDelete key w
  | none => w

/-- The method `Create`: calls `OnPut` unless it is nil. -/
def Create (mrf : MappingReceiverFuncs Key Val ω) (key : Key) (val : Val) (w : ω) : ω :=
  match mrf.OnPut with
  | some onPut => onPut key val w
  | none => w

/-- The method `Update`: calls `OnPut` with the new value unless it is nil. -/
def Update (mrf : MappingReceiverFuncs Key Val ω) (key : Key) (_oldVal newVal : Val) (w : ω) :
    ω :=
  match mrf.OnPut with
  | some onPut => onPut key newVal w
  | none => w

/-- The method `DeleteWithFinal`: calls `OnDelete` with the key unless it is nil. -/
def DeleteWithFinal (mrf : MappingReceiverFuncs Key Val ω) (key : Key) (_oldVal : Val)
    (w : ω) : ω :=
  match mrf.OnDelete with
  | some onDelete => onDelete key w
  | none => w

/-- The value used as a `MappingReceiver`. -/
def asMappingReceiver (mrf : MappingReceiverFuncs Key Val ω) : MappingReceiver Key Val ω where
  Put := mrf.Put
  Delete := mrf.Delete

/-- The value used as a `MapChangeReceiver`. -/
def asMapChangeReceiver (mrf : MappingReceiverFuncs Key Val ω) : MapChangeReceiver Key Val ω where
  Create := mrf.Create
  Update := mrf.Update
  DeleteWithFinal := mrf.DeleteWithFinal

end MappingReceiverFuncs

/-- MappingReceiverFork is a slice of `MappingReceiver`, all acting on the state `ω`. -/
abbrev MappingReceiverFork (Key Val ω : Type) := List (MappingReceiver Key Val ω)

/-- The method `Put` of a `MappingReceiverFork`: ranges over the slice. -/
def MappingReceiverFork.Put {Key Val ω : Type} :
    MappingReceiverFork Key Val ω → Key → Val → ω → ω
  | [], _, _, w => w
  | mr :: rest, key, val, w => MappingReceiverFork.Put rest key val (mr.Put key val w)

/-- The method `Delete` of a `MappingReceiverFork`: ranges over the slice. -/
def MappingReceiverFork.Delete {Key Val ω : Type} :
    MappingReceiverFork Key Val ω → Key → ω → ω
  | [], _, w => w
  | mr :: rest, key, w => MappingReceiverFork.Delete rest key (mr.Delete key w)

/-- MapChangeReceiverFuncs is a convenient constructor of `MapChangeReceiver` from
three funcs.  A nil func is `none`. -/
structure MapChangeReceiverFuncs (Key Val ω : Type) where
  OnCreate : Option (Key → Val → ω → ω)
  OnUpdate : Option (Key → Val → Val → ω → ω)
  OnDelete : Option (Key → Val → ω → ω)

namespace MapChangeReceiverFuncs

variable {Key Val ω : Type}

/-- The method `Create`: calls `OnCreate` unless it is nil. -/
def Create (mrf : MapChangeReceiverFuncs Key Val ω) (key : Key) (val : Val) (w : ω) : ω :=
  match mrf.OnCreate with
  | some onCreate => onCreate key val w
  | none => w

/-- The method `Update`: calls `OnUpdate` unless it is nil. -/
def Update (mrf : MapChangeReceiverFuncs Key Val ω) (key : Key) (oldVal newVal : Val) (w : ω) :
    ω :=
  match mrf.OnUpdate with
  | some onUpdate => onUpdate key oldVal newVal w
  | none => w

/-- The method `DeleteWithFinal`: calls `OnDelete` unless it is nil. -/
def DeleteWithFinal (mrf : MapChangeReceiverFuncs Key Val ω) (key : Key) (val : Val) (w : ω) :
    ω :=
  match mrf.OnDelete with
  | some onDelete => onDelete key val w
  | none => w

end MapChangeReceiverFuncs

/-- MapChangeReceiverFork is a slice of `MapChangeReceiver`, all acting on the
state `ω`. -/
abbrev MapChangeReceiverFork (Key Val ω : Type) := List (MapChangeReceiver Key Val ω)

/-- The method `Create` of a `MapChangeReceiverFork`: ranges over the slice. -/
def MapChangeReceiverFork.Create {Key Val ω : Type} :
    MapChangeReceiverFork Key Val ω → Key → Val → ω → ω
  | [], _, _, w => w
  | mr :: rest, key, val, w => MapChangeReceiverFork.Create rest key val (mr.Create key val w)

/-- The method `Update` of a `MapChangeReceiverFork`: ranges over the slice. -/
def MapChangeReceiverFork.Update {Key Val ω : Type} :
    MapChangeReceiverFork Key Val ω → Key → Val → Val → ω → ω
  | [], _, _, _, w => w
  | mr :: rest, key, oldVal, newVal, w =>
    MapChangeReceiverFork.Update rest key oldVal newVal (mr.Update key oldVal newVal w)

/-- The method `DeleteWithFinal` of a `MapChangeReceiverFork`: ranges over the slice. -/
def MapChangeReceiverFork.DeleteWithFinal {Key Val ω : Type} :
    MapChangeReceiverFork Key Val ω → Key → Val → ω → ω
  | [], _, _, w => w
  | mr :: rest, key, val, w =>
    MapChangeReceiverFork.DeleteWithFinal rest key val (mr.DeleteWithFinal key val w)

/-- MappingReceiverDiscardsPrevious produces a `MapChangeReceiver` that dumbs down
its info to pass along to the given `MappingReceiver`. -/
def MappingReceiverDiscardsPrevious {Key Val ρ : Type} (mr : MappingReceiver Key Val ρ) :
    MapChangeReceiver Key Val ρ where
  Create := fun key val s => mr.Put key val s
  Update := fun key _oldVal newVal s => mr.Put key newVal s
  DeleteWithFinal := fun key _val s => mr.Delete key s

/-- MutableMapWithKeyObserver wraps a mutable map and an observer, both acting on
the state `ω`: the reads are those of the map, `Put` and `Delete` write to the
map and then signal the observer. -/
def MutableMapWithKeyObserver {Key Val ω : Type} (mm : MutableMap Key Val ω)
    (observer : SetChangeReceiver Key ω) : MutableMap Key Val ω where
  Put := fun key val w => observer.Add key (mm.Put key val w)
  Delete := fun key w => observer.Remove key (mm.Delete key w)
  view := mm.view

/-- TransformMappingReceiver holds two transforming funcs and an inner receiver.
The funcs are Go funcs, so they may act on the state `ω`. -/
structure TransformMappingReceiver (KeyOriginal KeyTransformed ValOriginal ValTransformed
    ω : Type) where
  TransformKey : KeyOriginal → ω → KeyTransformed × ω
  TransformVal : ValOriginal → ω → ValTransformed × ω
  Inner : MappingReceiver KeyTransformed ValTransformed ω

namespace TransformMappingReceiver

variable {KeyOriginal KeyTransformed ValOriginal ValTransformed ω : Type}

/-- The method `Put`: transforms the key, then the value, then calls `Inner.Put`. -/
def Put (xr : TransformMappingReceiver KeyOriginal KeyTransformed ValOriginal ValTransformed ω)
    (keyOriginal : KeyOriginal) (valOriginal : ValOriginal) (w : ω) : ω :=
  match xr.TransformKey keyOriginal w with
  | (keyTransformed, w1) =>
    match xr.TransformVal valOriginal w1 with
    | (valTransformed, w2) => xr.Inner.Put keyTransformed valTransformed w2

/-- The method `Delete`: transforms the key, then calls `Inner.Delete`. -/
def Delete (xr : TransformMappingReceiver KeyOriginal KeyTransformed ValOriginal ValTransformed ω)
    (keyOriginal : KeyOriginal) (w : ω) : ω :=
  match xr.TransformKey keyOriginal w with
  | (keyTransformed, w1) => xr.Inner.Delete keyTransformed w1

end TransformMappingReceiver

/-! ## Derived operations -/

/-- MappingReceiverAsVisitor is the visitor that puts every pair into the receiver
and returns nil. -/
def MappingReceiverAsVisitor {Key Val ρ : Type} (receiver : MappingReceiver Key Val ρ)
    (tup : Pair Key Val) (s : ρ) : Option GoError × ρ :=
  (none, receiver.Put tup.First tup.Second s)

/-- MappingReceiverNegativeAsVisitor is the visitor that deletes the key of every
pair from the receiver and returns nil. -/
def MappingReceiverNegativeAsVisitor {Key Val ρ : Type} (receiver : MappingReceiver Key Val ρ)
    (tup : Pair Key Val) (s : ρ) : Option GoError × ρ :=
  (none, receiver.Delete tup.First s)

/-- MapApply visits the map with `MappingReceiverAsVisitor(receiver)`. -/
def MapApply {Key Val ρ : Type} (theMap : Map Key Val) (receiver : MappingReceiver Key Val ρ)
    (s : ρ) : ρ :=
  (Visit theMap.elems (MappingReceiverAsVisitor receiver) s).2

/-- MapAddAll visits `adds`, a producer of pairs given by the sequence it pushes,
and puts every pair into the map. -/
def MapAddAll {Key Val σ : Type} (theMap : MutableMap Key Val σ) (adds : List (Pair Key Val))
    (s : σ) : σ :=
  (Visit adds (fun add st => (none, theMap.Put add.First add.Second st)) s).2

/-- MapRemoveAll visits `goners`, a producer of pairs given by the sequence it
pushes, and deletes the key of every pair from the map. -/
def MapRemoveAll {Key Val σ : Type} (theMap : MutableMap Key Val σ) (goners : List (Pair Key Val))
    (s : σ) : σ :=
  (Visit goners (fun goner st => (none, theMap.Delete goner.First st)) s).2


/-- MapGetAdd does a `Get` and an add if the sought mapping is missing and desired.
If the sought mapping is missing and undesired then the result is the zero value
of `Val`.  The generator is a Go func, so it may act on a state `γ` of its own. -/
def MapGetAdd {Key Val σ γ : Type} [Inhabited Val] (theMap : MutableMap Key Val σ) (key : Key)
    (want : Bool) (valGenerator : Key → γ → Val × γ) (s : σ × γ) : Val × (σ × γ) :=
  match (theMap.view s.1).Get key with
  | (val, true) => (val, s)
  | (_, false) =>
    if want then
      match valGenerator key s.2 with
      | (val, g1) => (val, (theMap.Put key val s.1, g1))
    else
      (default, s)

/-- MapEqual compares sizes first and then visits `left`, stopping with `errStop`
at the first entry that `right` lacks or maps to another value. -/
def MapEqual {Key Val : Type} [DecidableEq Val] (left right : Map Key Val) : Bool :=
  if left.Len ≠ right.Len then
    false
  else if (Visit left.elems (fun tup (u : Unit) =>
      match right.Get tup.First with
      | (valRight, has) =>
        if !has || tup.Second != valRight then (some GoError.errStop, u) else (none, u))
      ()).1 ≠ none then
    false
  else
    true

/-- The visitor closure that `MapEnumerateDifferences` passes to `left.Visit`. -/
def diffLeftVisitor {Key Val ρ : Type} [DecidableEq Val] (right : Map Key Val)
    (receiver : MapChangeReceiver Key Val ρ) (tup : Pair Key Val) (st : ρ) :
    Option GoError × ρ :=
  match right.Get tup.First with
  | (valRight, has) =>
    if !has then
      (none, receiver.DeleteWithFinal tup.First tup.Second st)
    else if valRight ≠ tup.Second then
      (none, receiver.Update tup.First tup.Second valRight st)
    else
      (none, st)

/-- The visitor closure that `MapEnumerateDifferences` passes to `right.Visit`. -/
def diffRightVisitor {Key Val ρ : Type} [DecidableEq Val] (left : Map Key Val)
    (receiver : MapChangeReceiver Key Val ρ) (tup : Pair Key Val) (st : ρ) :
    Option GoError × ρ :=
  match left.Get tup.First with
  | (valLeft, has) =>
    if !has then
      (none, receiver.Create tup.First tup.Second st)
    else if valLeft ≠ tup.Second then
      (none, receiver.Update tup.First valLeft tup.Second st)
    else
      (none, st)

/-- MapEnumerateDifferences visits `left` and then `right`, calling the receiver
for the entries that the other map lacks or maps to another value.  The results
of the two `Visit` calls are discarded, as in the source. -/
def MapEnumerateDifferences {Key Val ρ : Type} [DecidableEq Val] (left right : Map Key Val)
    (receiver : MapChangeReceiver Key Val ρ) (s : ρ) : ρ :=
  let s1 := (Visit left.elems (diffLeftVisitor right receiver) s).2
  (Visit right.elems (diffRightVisitor left receiver) s1).2

/-! ## Observing the calls made on a receiver -/

/-- MapChangeCall is one call on a `MapChangeReceiver`, with its arguments. -/
inductive MapChangeCall (Key Val : Type) where
  | Create (key : Key) (val : Val)
  | Update (key : Key) (oldVal newVal : Val)
  | DeleteWithFinal (key : Key) (val : Val)
deriving DecidableEq, Repr

namespace MapChangeCall

variable {Key Val : Type}

/-- The key a call mentions. -/
def key : MapChangeCall Key Val → Key
  | Create k _ => k
  | Update k _ _ => k
  | DeleteWithFinal k _ => k

/-- Whether the call is a `Create`. -/
def isCreate : MapChangeCall Key Val → Bool
  | Create _ _ => true
  | _ => false

/-- Whether the call is a `DeleteWithFinal`. -/
def isDelete : MapChangeCall Key Val → Bool
  | DeleteWithFinal _ _ => true
  | _ => false

/-- Makes the call on a receiver. -/
def run {ρ : Type} (receiver : MapChangeReceiver Key Val ρ) (s : ρ) : MapChangeCall Key Val → ρ
  | Create k v => receiver.Create k v s
  | Update k o n => receiver.Update k o n s
  | DeleteWithFinal k v => receiver.DeleteWithFinal k v s

end MapChangeCall

/-- Makes a sequence of calls on a receiver, in order. -/
def replay {Key Val ρ : Type} (receiver : MapChangeReceiver Key Val ρ)
    (calls : List (MapChangeCall Key Val)) (s : ρ) : ρ :=
  calls.foldl (MapChangeCall.run receiver) s

/-- The receiver that appends every call it gets to a log. -/
def recorder (Key Val : Type) : MapChangeReceiver Key Val (List (MapChangeCall Key Val)) where
  Create := fun k v log => log ++ [MapChangeCall.Create k v]
  Update := fun k o n log => log ++ [MapChangeCall.Update k o n]
  DeleteWithFinal := fun k v log => log ++ [MapChangeCall.DeleteWithFinal k v]

/-- The calls `MapEnumerateDifferences` makes, as seen by the recording receiver. -/
def diffCalls {Key Val : Type} [DecidableEq Val] (left right : Map Key Val) :
    List (MapChangeCall Key Val) :=
  MapEnumerateDifferences left right (recorder Key Val) []

/-- MappingCall is one call on a `MappingReceiver`, with its arguments. -/
inductive MappingCall (Key Val : Type) where
  | Put (key : Key) (val : Val)
  | Delete (key : Key)
deriving DecidableEq, Repr

/-- Makes the call on a receiver. -/
def MappingCall.run {Key Val ρ : Type} (receiver : MappingReceiver Key Val ρ) (s : ρ) :
    MappingCall Key Val → ρ
  | MappingCall.Put k v => receiver.Put k v s
  | MappingCall.Delete k => receiver.Delete k s

/-- Makes a sequence of calls on a `MappingReceiver`, in order. -/
def replayMapping {Key Val ρ : Type} (receiver : MappingReceiver Key Val ρ)
    (calls : List (MappingCall Key Val)) (s : ρ) : ρ :=
  calls.foldl (MappingCall.run receiver) s

/-- The `MappingReceiver` that appends every call it gets to a log. -/
def mappingRecorder (Key Val : Type) : MappingReceiver Key Val (List (MappingCall Key Val)) where
  Put := fun k v log => log ++ [MappingCall.Put k v]
  Delete := fun k log => log ++ [MappingCall.Delete k]

/-- The call that the discard-previous adapter turns a change call into:
`Create(k,v)` into `Put(k,v)`, `Update(k,old,new)` into `Put(k,new)`,
`DeleteWithFinal(k,last)` into `Delete(k)`. -/
def MapChangeCall.discardPrevious {Key Val : Type} : MapChangeCall Key Val → MappingCall Key Val
  | MapChangeCall.Create k v => MappingCall.Put k v
  | MapChangeCall.Update k _ n => MappingCall.Put k n
  | MapChangeCall.DeleteWithFinal k _ => MappingCall.Delete k

/-- SetChangeCall is one call on a `SetChangeReceiver`, with its argument. -/
inductive SetChangeCall (Key : Type) where
  | Add (key : Key)
  | Remove (key : Key)
deriving DecidableEq, Repr

/-- A mutable map that also appends every write it gets, tagged by `tag`, to a log
kept beside its state. -/
def tracedMap {Key Val σ E : Type} (mm : MutableMap Key Val σ) (tag : MappingCall Key Val → E) :
    MutableMap Key Val (σ × List E) where
  Put := fun k v st => (mm.Put k v st.1, st.2 ++ [tag (MappingCall.Put k v)])
  Delete := fun k st => (mm.Delete k st.1, st.2 ++ [tag (MappingCall.Delete k)])
  view := fun st => mm.view st.1

/-- An observer that appends every signal it gets, tagged by `tag`, to the log kept
beside a map's state. -/
def tracedObserver {Key σ E : Type} (tag : SetChangeCall Key → E) :
    SetChangeReceiver Key (σ × List E) where
  Add := fun k st => (st.1, st.2 ++ [tag (SetChangeCall.Add k)])
  Remove := fun k st => (st.1, st.2 ++ [tag (SetChangeCall.Remove k)])

/-- A generator that computes `f` and appends the key it is invoked with to a log. -/
def tracedGen {Key Val : Type} (f : Key → Val) : Key → List Key → Val × List Key :=
  fun k log => (f k, log ++ [k])

/-- The child of a fork that appends its own tag and every call it gets to a log
shared by all the children. -/
def taggedRecorder {ι : Type} (Key Val : Type) (i : ι) :
    MappingReceiver Key Val (List (ι × MappingCall Key Val)) where
  Put := fun k v log => log ++ [(i, MappingCall.Put k v)]
  Delete := fun k log => log ++ [(i, MappingCall.Delete k)]

/-- The child of a change fork that appends its own tag and every call it gets to a
log shared by all the children. -/
def taggedChangeRecorder {ι : Type} (Key Val : Type) (i : ι) :
    MapChangeReceiver Key Val (List (ι × MapChangeCall Key Val)) where
  Create := fun k v log => log ++ [(i, MapChangeCall.Create k v)]
  Update := fun k o n log => log ++ [(i, MapChangeCall.Update k o n)]
  DeleteWithFinal := fun k v log => log ++ [(i, MapChangeCall.DeleteWithFinal k v)]

/-- TransformCall is one step of a `TransformMappingReceiver`: an application of
one of its funcs or a call on its inner receiver. -/
inductive TransformCall (KeyOriginal KeyTransformed ValOriginal ValTransformed : Type) where
  | TransformKey (key : KeyOriginal)
  | TransformVal (val : ValOriginal)
  | InnerPut (key : KeyTransformed) (val : ValTransformed)
  | InnerDelete (key : KeyTransformed)
deriving DecidableEq, Repr

/-- The `TransformMappingReceiver` with funcs `fk` and `fv` in which every
application of a func and every call on the inner receiver is appended to a log. -/
def tracedTransform {KeyOriginal KeyTransformed ValOriginal ValTransformed : Type}
    (fk : KeyOriginal → KeyTransformed) (fv : ValOriginal → ValTransformed) :
    TransformMappingReceiver KeyOriginal KeyTransformed ValOriginal ValTransformed
      (List (TransformCall KeyOriginal KeyTransformed ValOriginal ValTransformed)) where
  TransformKey := fun k log => (fk k, log ++ [TransformCall.TransformKey k])
  TransformVal := fun v log => (fv v, log ++ [TransformCall.TransformVal v])
  Inner :=
    { Put := fun k v log => log ++ [TransformCall.InnerPut k v]
      Delete := fun k log => log ++ [TransformCall.InnerDelete k] }

/-- The `TransformMappingReceiver` with pure funcs `fk` and `fv` over an inner
receiver with state `ω`. -/
def pureTransform {KeyOriginal KeyTransformed ValOriginal ValTransformed ω : Type}
    (fk : KeyOriginal → KeyTransformed) (fv : ValOriginal → ValTransformed)
    (inner : MappingReceiver KeyTransformed ValTransformed ω) :
    TransformMappingReceiver KeyOriginal KeyTransformed ValOriginal ValTransformed ω where
  TransformKey := fun k w => (fk k, w)
  TransformVal := fun v w => (fv v, w)
  Inner := inner

/-! ## The diff as the specification words it -/

/-- The rule of step 1 of the specification for one entry `(k, lv)` of `left`:
`DeleteWithFinal(k, lv)` if `right` has no `k`, `Update(k, lv, rv)` if `right` has
`k` with `rv ≠ lv`, and nothing if `rv = lv`. -/
def specLeftEmit {Key Val : Type} [DecidableEq Val] (right : Map Key Val) (tup : Pair Key Val) :
    Option (MapChangeCall Key Val) :=
  if (right.Get tup.First).2 = false then
    some (MapChangeCall.DeleteWithFinal tup.First tup.Second)
  else if (right.Get tup.First).1 ≠ tup.Second then
    some (MapChangeCall.Update tup.First tup.Second (right.Get tup.First).1)
  else none

/-- The rule of step 2 of the specification for one entry `(k, rv)` of `right`:
`Create(k, rv)` if `left` has no `k`, `Update(k, lv, rv)` if `left` has `k` with
`lv ≠ rv`, and nothing otherwise. -/
def specRightEmit {Key Val : Type} [DecidableEq Val] (left : Map Key Val) (tup : Pair Key Val) :
    Option (MapChangeCall Key Val) :=
  if (left.Get tup.First).2 = false then
    some (MapChangeCall.Create tup.First tup.Second)
  else if (left.Get tup.First).1 ≠ tup.Second then
    some (MapChangeCall.Update tup.First (left.Get tup.First).1 tup.Second)
  else none

/-- Step 1 of the specification: walk `left` in visit order, applying the rule
of step 1 to each entry. -/
def specLeftPass {Key Val : Type} [DecidableEq Val] (left right : Map Key Val) :
    List (MapChangeCall Key Val) :=
  left.elems.filterMap (specLeftEmit right)

/-- Step 2 of the specification: walk `right` in visit order, applying the rule
of step 2 to each entry. -/
def specRightPass {Key Val : Type} [DecidableEq Val] (left right : Map Key Val) :
    List (MapChangeCall Key Val) :=
  right.elems.filterMap (specRightEmit left)

/-- The calls of a sequence that mention the key `k`, in order. -/
def callsFor {Key Val : Type} [DecidableEq Key] (k : Key) (calls : List (MapChangeCall Key Val)) :
    List (MapChangeCall Key Val) :=
  calls.filter (fun c => c.key = k)

/-- The calls the specification lets `k` receive, by the four cases of presence:
two equal `Update`s when both maps hold `k` with unequal values, one
`DeleteWithFinal` when only `left` holds `k`, one `Create` when only `right`
does, and nothing otherwise. -/
def specCallsFor {Key Val : Type} [DecidableEq Val] (left right : Map Key Val) (k : Key) :
    List (MapChangeCall Key Val) :=
  match left.Get k, right.Get k with
  | (lv, true), (rv, true) =>
    if lv ≠ rv then [MapChangeCall.Update k lv rv, MapChangeCall.Update k lv rv] else []
  | (lv, true), (_, false) => [MapChangeCall.DeleteWithFinal k lv]
  | (_, false), (rv, true) => [MapChangeCall.Create k rv]
  | (_, false), (_, false) => []

/-- Two `Get` results describe the same mapping: the same presence and, when
present, the same value. -/
def Mirrors {Val : Type} (a b : Val × Bool) : Prop :=
  a.2 = b.2 ∧ (a.2 = true → a.1 = b.1)

/-- The maps differ at `k`: `k` is present in one only, or present in both with
unequal values. -/
def DiffersAt {Key Val : Type} (left right : Map Key Val) (k : Key) : Prop :=
  (left.Get k).2 ≠ (right.Get k).2
    ∨ ((left.Get k).2 = true ∧ (right.Get k).2 = true ∧ (left.Get k).1 ≠ (right.Get k).1)

/-! ## The receiver's implied state and well-formed call sequences -/

/-- The state a snapshot implies for a receiver: the value of each present key. -/
def impliedState {Key Val : Type} (m : Map Key Val) : Key → Option Val :=
  fun k => if (m.Get k).2 = true then some (m.Get k).1 else none

/-- The implied state after one call: `Create` and `Update` tell the receiver the
new value of the key, `DeleteWithFinal` removes the key. -/
def impliedStep {Key Val : Type} [DecidableEq Key] (st : Key → Option Val) :
    MapChangeCall Key Val → Key → Option Val
  | MapChangeCall.Create k v => Function.update st k (some v)
  | MapChangeCall.Update k _ n => Function.update st k (some n)
  | MapChangeCall.DeleteWithFinal k _ => Function.update st k none

/-- Whether one call respects the contract on emitters in the implied state `st`:
no `Create` for a present key, no `Update` or `DeleteWithFinal` for an absent key,
and the old value of an `Update` is the value the receiver was last told. -/
def callAllowed {Key Val : Type} [DecidableEq Val] (st : Key → Option Val) :
    MapChangeCall Key Val → Bool
  | MapChangeCall.Create k _ => (st k).isNone
  | MapChangeCall.Update k o _ => decide (st k = some o)
  | MapChangeCall.DeleteWithFinal k _ => (st k).isSome

/-- Whether a call sequence is well-formed from the implied state `st`: every call
is allowed in the implied state the earlier calls leave. -/
def wellFormedFrom {Key Val : Type} [DecidableEq Key] [DecidableEq Val] (st : Key → Option Val) :
    List (MapChangeCall Key Val) → Bool
  | [] => true
  | c :: cs => callAllowed st c && wellFormedFrom (impliedStep st c) cs

/-! ## Lawful maps -/

/-- A map is lawful when `Visit` yields each key once, `Visit` and `Get` agree on
the entries, and `Len` is the number of entries. -/
structure Map.Lawful {Key Val : Type} (m : Map Key Val) : Prop where
  visit_once : (m.elems.map Pair.First).Nodup
  visit_get : ∀ k v, Pair.mk k v ∈ m.elems ↔ m.Get k = (v, true)
  len_eq : m.Len = (m.elems.length : Int)

/-- The Go convention for an absent key: `Get` returns the zero value with `false`. -/
def Map.ZeroWhenAbsent {Key Val : Type} [Inhabited Val] (m : Map Key Val) : Prop :=
  ∀ k, (m.Get k).2 = false → m.Get k = (default, false)

/-- A mutable map is lawful when `Get` after `Put(k,v)` returns `(v, true)` at `k`,
`Get` after `Delete(k)` returns `(zero, false)` at `k`, a write to `k` leaves the
other keys alone, and an absent key reads as `(zero, false)`. -/
structure MutableMap.Lawful {Key Val σ : Type} [Inhabited Val] (mm : MutableMap Key Val σ) :
    Prop where
  get_put : ∀ s k v, (mm.view (mm.Put k v s)).Get k = (v, true)
  get_put_other : ∀ s k v j, j ≠ k → (mm.view (mm.Put k v s)).Get j = (mm.view s).Get j
  get_delete : ∀ s k, (mm.view (mm.Delete k s)).Get k = (default, false)
  get_delete_other : ∀ s k j, j ≠ k → (mm.view (mm.Delete k s)).Get j = (mm.view s).Get j
  zero_absent : ∀ s, (mm.view s).ZeroWhenAbsent

/-! ## A reference map, used to instantiate the theorems -/

/-- Lookup of a key in a list of pairs, with the Go result convention. -/
def listGet {Key Val : Type} [DecidableEq Key] [Inhabited Val] :
    List (Pair Key Val) → Key → Val × Bool
  | [], _ => (default, false)
  | p :: rest, k => if p.First = k then (p.Second, true) else listGet rest k

/-- The map whose entries are the given list, visited in list order. -/
def listView {Key Val : Type} [DecidableEq Key] [Inhabited Val] (l : List (Pair Key Val)) :
    Map Key Val where
  Len := (l.length : Int)
  LenIsCheap := true
  Get := listGet l
  elems := l

/-- A mutable map over a list of pairs: `Put` drops the key and appends the new
pair, `Delete` drops the key. -/
def listMap (Key Val : Type) [DecidableEq Key] [Inhabited Val] :
    MutableMap Key Val (List (Pair Key Val)) where
  Put := fun k v l => l.filter (fun p => p.First ≠ k) ++ [Pair.mk k v]
  Delete := fun k l => l.filter (fun p => p.First ≠ k)
  view := listView

/-- The left snapshot `{a:1, b:2, c:3}` of the specification's diff scenario. -/
def exampleLeft : Map String Int :=
  listView [Pair.mk "a" 1, Pair.mk "b" 2, Pair.mk "c" 3]

/-- The right snapshot `{b:2, c:4, d:5}` of the specification's diff scenario. -/
def exampleRight : Map String Int :=
  listView [Pair.mk "b" 2, Pair.mk "c" 4, Pair.mk "d" 5]

/-- The snapshot `{c:3}`. -/
def changedLeft : Map String Int :=
  listView [Pair.mk "c" 3]

/-- The snapshot `{c:4}`. -/
def changedRight : Map String Int :=
  listView [Pair.mk "c" 4]

/-- A value generator for the `MapGetAdd` scenario: the length of the key plus 7. -/
def exampleGen : String → Unit → Int × Unit :=
  fun key u => ((key.length : Int) + 7, u)

/-! ## Helper lemmas -/

section Helpers

variable {Key Val ρ : Type}

theorem replay_append (receiver : MapChangeReceiver Key Val ρ)
    (xs ys : List (MapChangeCall Key Val)) (s : ρ) :
    replay receiver (xs ++ ys) s = replay receiver ys (replay receiver xs s) := by
  simp [replay, List.foldl_append]

theorem replay_recorder (xs log : List (MapChangeCall Key Val)) :
    replay (recorder Key Val) xs log = log ++ xs := by
  induction xs generalizing log with
  | nil => simp [replay]
  | cons c cs ih =>
    have h : replay (recorder Key Val) (c :: cs) log
        = replay (recorder Key Val) cs (MapChangeCall.run (recorder Key Val) log c) := rfl
    rw [h, ih]
    cases c <;> simp [MapChangeCall.run, recorder]

theorem Visit_emits {Elt : Type} (receiver : MapChangeReceiver Key Val ρ)
    (visitor : Elt → ρ → Option GoError × ρ) (emit : Elt → Option (MapChangeCall Key Val))
    (h : ∀ e s, visitor e s = (none, replay receiver (emit e).toList s))
    (elems : List Elt) (s : ρ) :
    Visit elems visitor s = (none, replay receiver (elems.filterMap emit) s) := by
  induction elems generalizing s with
  | nil => rfl
  | cons e rest ih =>
    rw [Visit, h e s]
    simp only []
    rw [ih]
    cases he : emit e with
    | none => simp [List.filterMap_cons, he, replay]
    | some c => simp [List.filterMap_cons, he, replay]

theorem diffLeftVisitor_eq [DecidableEq Val] (right : Map Key Val)
    (receiver : MapChangeReceiver Key Val ρ) (e : Pair Key Val) (st : ρ) :
    diffLeftVisitor right receiver e st
      = (none, replay receiver (specLeftEmit right e).toList st) := by
  unfold diffLeftVisitor specLeftEmit
  generalize right.Get e.First = g
  rcases g with ⟨rv, has⟩
  cases has
  · simp [replay, MapChangeCall.run]
  · by_cases hne : rv = e.Second <;> simp [hne, replay, MapChangeCall.run]

theorem diffRightVisitor_eq [DecidableEq Val] (left : Map Key Val)
    (receiver : MapChangeReceiver Key Val ρ) (e : Pair Key Val) (st : ρ) :
    diffRightVisitor left receiver e st
      = (none, replay receiver (specRightEmit left e).toList st) := by
  unfold diffRightVisitor specRightEmit
  generalize left.Get e.First = g
  rcases g with ⟨lv, has⟩
  cases has
  · simp [replay, MapChangeCall.run]
  · by_cases hne : lv = e.Second <;> simp [hne, replay, MapChangeCall.run]

theorem leftVisit_eq [DecidableEq Val] (left right : Map Key Val)
    (receiver : MapChangeReceiver Key Val ρ) (s : ρ) :
    Visit left.elems (diffLeftVisitor right receiver) s
      = (none, replay receiver (specLeftPass left right) s) :=
  Visit_emits receiver _ (specLeftEmit right) (diffLeftVisitor_eq right receiver) left.elems s

theorem rightVisit_eq [DecidableEq Val] (left right : Map Key Val)
    (receiver : MapChangeReceiver Key Val ρ) (s : ρ) :
    Visit right.elems (diffRightVisitor left receiver) s
      = (none, replay receiver (specRightPass left right) s) :=
  Visit_emits receiver _ (specRightEmit left) (diffRightVisitor_eq left receiver) right.elems s

theorem MapEnumerateDifferences_eq_replay [DecidableEq Val] (left right : Map Key Val)
    (receiver : MapChangeReceiver Key Val ρ) (s : ρ) :
    MapEnumerateDifferences left right receiver s
      = replay receiver (specLeftPass left right ++ specRightPass left right) s := by
  unfold MapEnumerateDifferences
  rw [replay_append]
  simp only [leftVisit_eq, rightVisit_eq]

theorem diffCalls_eq [DecidableEq Val] (left right : Map Key Val) :
    diffCalls left right = specLeftPass left right ++ specRightPass left right := by
  unfold diffCalls
  rw [MapEnumerateDifferences_eq_replay, replay_recorder]
  simp

theorem listGet_of_not_mem [DecidableEq Key] [Inhabited Val] (l : List (Pair Key Val)) (k : Key)
    (h : k ∉ l.map Pair.First) : listGet l k = (default, false) := by
  induction l with
  | nil => rfl
  | cons p rest ih =>
    simp only [List.map_cons, List.mem_cons, not_or] at h
    simp [listGet, Ne.symm h.1, ih h.2]

theorem listGet_true_mem [DecidableEq Key] [Inhabited Val] (l : List (Pair Key Val)) (k : Key)
    (v : Val) (h : listGet l k = (v, true)) : Pair.mk k v ∈ l := by
  induction l with
  | nil => simp [listGet] at h
  | cons p rest ih =>
    by_cases hp : p.First = k
    · simp only [listGet, hp, if_true, Prod.mk.injEq, and_true] at h
      rcases p with ⟨a, b⟩
      simp only at hp h
      simp [hp, h]
    · simp only [listGet, hp, if_false] at h
      exact List.mem_cons_of_mem _ (ih h)

theorem listGet_of_mem [DecidableEq Key] [Inhabited Val] (l : List (Pair Key Val)) (k : Key)
    (v : Val) (hnd : (l.map Pair.First).Nodup) (h : Pair.mk k v ∈ l) :
    listGet l k = (v, true) := by
  induction l with
  | nil => simp at h
  | cons p rest ih =>
    simp only [List.map_cons, List.nodup_cons] at hnd
    rcases List.mem_cons.1 h with h1 | h1
    · subst h1
      simp [listGet]
    · have hk : k ∈ rest.map Pair.First := List.mem_map.2 ⟨_, h1, rfl⟩
      have hne : p.First ≠ k := fun e => hnd.1 (e ▸ hk)
      simp [listGet, hne, ih hnd.2 h1]

theorem listGet_false [DecidableEq Key] [Inhabited Val] (l : List (Pair Key Val)) (k : Key)
    (h : (listGet l k).2 = false) : listGet l k = (default, false) := by
  induction l with
  | nil => rfl
  | cons p rest ih =>
    by_cases hp : p.First = k
    · simp [listGet, hp] at h
    · simp only [listGet, hp, if_false] at h ⊢
      exact ih h

theorem listView_lawful [DecidableEq Key] [Inhabited Val] (l : List (Pair Key Val))
    (hnd : (l.map Pair.First).Nodup) : (listView l).Lawful where
  visit_once := hnd
  visit_get := fun k v => ⟨listGet_of_mem l k v hnd, listGet_true_mem l k v⟩
  len_eq := rfl

theorem listView_zero [DecidableEq Key] [Inhabited Val] (l : List (Pair Key Val)) :
    (listView l).ZeroWhenAbsent := fun k h => listGet_false l k h

theorem listGet_append [DecidableEq Key] [Inhabited Val] (l r : List (Pair Key Val)) (k : Key) :
    listGet (l ++ r) k = if (listGet l k).2 = true then listGet l k else listGet r k := by
  induction l with
  | nil => simp [listGet]
  | cons p rest ih =>
    by_cases hp : p.First = k
    · simp [listGet, hp]
    · simp [listGet, hp, ih]

theorem listGet_filter_same [DecidableEq Key] [Inhabited Val] (l : List (Pair Key Val)) (k : Key) :
    listGet (l.filter (fun p => p.First ≠ k)) k = (default, false) := by
  apply listGet_of_not_mem
  simp [List.mem_filter]

theorem listGet_filter_other [DecidableEq Key] [Inhabited Val] (l : List (Pair Key Val))
    (k j : Key) (h : j ≠ k) :
    listGet (l.filter (fun p => p.First ≠ k)) j = listGet l j := by
  induction l with
  | nil => rfl
  | cons p rest ih =>
    by_cases hp : p.First = k
    · have hj : p.First ≠ j := fun e => h (e.symm.trans hp)
      rw [List.filter_cons_of_neg (by simpa using hp), ih]
      simp [listGet, hj]
    · rw [List.filter_cons_of_pos (by simpa using hp)]
      simp only [listGet]
      rw [ih]

theorem listMap_lawful (Key Val : Type) [DecidableEq Key] [Inhabited Val] :
    (listMap Key Val).Lawful where
  get_put := fun s k v => by
    show listGet (s.filter (fun p => p.First ≠ k) ++ [Pair.mk k v]) k = (v, true)
    rw [listGet_append, listGet_filter_same]
    simp [listGet]
  get_put_other := fun s k v j h => by
    show listGet (s.filter (fun p => p.First ≠ k) ++ [Pair.mk k v]) j = listGet s j
    rw [listGet_append, listGet_filter_other s k j h]
    by_cases hs : (listGet s j).2 = true
    · simp [hs]
    · have hf := listGet_false s j (by simpa using hs)
      simp [hf, listGet, Ne.symm h]
  get_delete := fun s k => listGet_filter_same s k
  get_delete_other := fun s k j h => listGet_filter_other s k j h
  zero_absent := fun s => listView_zero s

theorem specLeftPass_eq [DecidableEq Val] (left right : Map Key Val) :
    specLeftPass left right = left.elems.filterMap (specLeftEmit right) := rfl

theorem specRightPass_eq [DecidableEq Val] (left right : Map Key Val) :
    specRightPass left right = right.elems.filterMap (specRightEmit left) := rfl

theorem specLeftEmit_key [DecidableEq Val] (right : Map Key Val) (tup : Pair Key Val)
    (c : MapChangeCall Key Val) (h : specLeftEmit right tup = some c) : c.key = tup.First := by
  unfold specLeftEmit at h
  split_ifs at h <;> simp at h <;> subst h <;> rfl

theorem specRightEmit_key [DecidableEq Val] (left : Map Key Val) (tup : Pair Key Val)
    (c : MapChangeCall Key Val) (h : specRightEmit left tup = some c) : c.key = tup.First := by
  unfold specRightEmit at h
  split_ifs at h <;> simp at h <;> subst h <;> rfl

theorem filter_key_of_mem [DecidableEq Key] (l : List (Pair Key Val))
    (hnd : (l.map Pair.First).Nodup) (k : Key) (v : Val) (h : Pair.mk k v ∈ l) :
    l.filter (fun p => p.First = k) = [Pair.mk k v] := by
  induction l with
  | nil => simp at h
  | cons p rest ih =>
    simp only [List.map_cons, List.nodup_cons] at hnd
    rcases List.mem_cons.1 h with h1 | h1
    · subst h1
      rw [List.filter_cons_of_pos (by simp)]
      congr 1
      rw [List.filter_eq_nil_iff]
      intro q hq hqk
      exact hnd.1 (List.mem_map.2 ⟨q, hq, by simpa using hqk⟩)
    · have hk : k ∈ rest.map Pair.First := List.mem_map.2 ⟨_, h1, rfl⟩
      have hne : p.First ≠ k := fun e => hnd.1 (e ▸ hk)
      rw [List.filter_cons_of_neg (by simpa using hne)]
      exact ih hnd.2 h1

theorem filter_key_of_not_mem [DecidableEq Key] (l : List (Pair Key Val)) (k : Key)
    (h : k ∉ l.map Pair.First) : l.filter (fun p => p.First = k) = [] := by
  rw [List.filter_eq_nil_iff]
  intro q hq hqk
  exact h (List.mem_map.2 ⟨q, hq, by simpa using hqk⟩)

theorem callsFor_filterMap [DecidableEq Key] (l : List (Pair Key Val))
    (f : Pair Key Val → Option (MapChangeCall Key Val))
    (hf : ∀ p c, f p = some c → c.key = p.First) (k : Key) :
    callsFor k (l.filterMap f) = (l.filter (fun p => p.First = k)).filterMap f := by
  induction l with
  | nil => rfl
  | cons p rest ih =>
    unfold callsFor at ih ⊢
    cases hfp : f p with
    | none =>
      rw [List.filterMap_cons_none hfp, ih]
      by_cases hk : p.First = k
      · rw [List.filter_cons_of_pos (by simpa using hk), List.filterMap_cons_none hfp]
      · rw [List.filter_cons_of_neg (by simpa using hk)]
    | some c =>
      have hc := hf p c hfp
      rw [List.filterMap_cons_some hfp]
      by_cases hk : p.First = k
      · rw [List.filter_cons_of_pos (by simpa [hc] using hk),
          List.filter_cons_of_pos (by simpa using hk), List.filterMap_cons_some hfp, ih]
      · rw [List.filter_cons_of_neg (by simpa [hc] using hk),
          List.filter_cons_of_neg (by simpa using hk), ih]

theorem callsFor_append [DecidableEq Key] (k : Key) (xs ys : List (MapChangeCall Key Val)) :
    callsFor k (xs ++ ys) = callsFor k xs ++ callsFor k ys := by
  simp [callsFor]

theorem Lawful.not_mem_keys {m : Map Key Val} (hm : m.Lawful) (k : Key)
    (h : (m.Get k).2 = false) : k ∉ m.elems.map Pair.First := by
  intro hk
  obtain ⟨p, hp, rfl⟩ := List.mem_map.1 hk
  have := (hm.visit_get p.First p.Second).1 hp
  rw [this] at h
  cases h

theorem Lawful.mem_of_get {m : Map Key Val} (hm : m.Lawful) (k : Key)
    (h : (m.Get k).2 = true) : Pair.mk k (m.Get k).1 ∈ m.elems := by
  apply (hm.visit_get k (m.Get k).1).2
  rw [← h]

/-- The calls of the left pass that mention `k`. -/
theorem callsFor_specLeftPass [DecidableEq Key] [DecidableEq Val] (left right : Map Key Val)
    (hl : left.Lawful) (k : Key) :
    callsFor k (specLeftPass left right)
      = if (left.Get k).2 = true then (specLeftEmit right (Pair.mk k (left.Get k).1)).toList
        else [] := by
  rw [specLeftPass_eq, callsFor_filterMap _ _ (specLeftEmit_key right)]
  by_cases h : (left.Get k).2 = true
  · rw [filter_key_of_mem _ hl.visit_once k _ (Lawful.mem_of_get hl k h), if_pos h]
    cases he : specLeftEmit right (Pair.mk k (left.Get k).1) <;> simp [List.filterMap_cons, he]
  · rw [filter_key_of_not_mem _ k (Lawful.not_mem_keys hl k (by simpa using h)), if_neg h]
    rfl

/-- The calls of the right pass that mention `k`. -/
theorem callsFor_specRightPass [DecidableEq Key] [DecidableEq Val] (left right : Map Key Val)
    (hr : right.Lawful) (k : Key) :
    callsFor k (specRightPass left right)
      = if (right.Get k).2 = true then (specRightEmit left (Pair.mk k (right.Get k).1)).toList
        else [] := by
  rw [specRightPass_eq, callsFor_filterMap _ _ (specRightEmit_key left)]
  by_cases h : (right.Get k).2 = true
  · rw [filter_key_of_mem _ hr.visit_once k _ (Lawful.mem_of_get hr k h), if_pos h]
    cases he : specRightEmit left (Pair.mk k (right.Get k).1) <;> simp [List.filterMap_cons, he]
  · rw [filter_key_of_not_mem _ k (Lawful.not_mem_keys hr k (by simpa using h)), if_neg h]
    rfl

/-- The calls of the whole diff that mention `k`. -/
theorem callsFor_diffCalls [DecidableEq Key] [DecidableEq Val] (left right : Map Key Val)
    (hl : left.Lawful) (hr : right.Lawful) (k : Key) :
    callsFor k (diffCalls left right) = specCallsFor left right k := by
  rw [diffCalls_eq, callsFor_append, callsFor_specLeftPass left right hl,
    callsFor_specRightPass left right hr]
  unfold specCallsFor specLeftEmit specRightEmit
  rcases hL : left.Get k with ⟨lv, lb⟩
  rcases hR : right.Get k with ⟨rv, rb⟩
  cases lb <;> cases rb <;> simp [hL, hR]
  by_cases h : lv = rv
  · simp [h]
  · simp [h, Ne.symm h]

theorem get_replay_callsFor [DecidableEq Key] [Inhabited Val] {σ : Type}
    (mm : MutableMap Key Val σ) (hmm : mm.Lawful) (k : Key)
    (calls : List (MapChangeCall Key Val)) (s t : σ)
    (h : (mm.view s).Get k = (mm.view t).Get k) :
    (mm.view (replay (MappingReceiverDiscardsPrevious mm.toMappingReceiver) calls s)).Get k
      = (mm.view (replay (MappingReceiverDiscardsPrevious mm.toMappingReceiver)
          (callsFor k calls) t)).Get k := by
  induction calls generalizing s t with
  | nil => exact h
  | cons c cs ih =>
    by_cases hk : c.key = k
    · have hcf : callsFor k (c :: cs) = c :: callsFor k cs := by
        unfold callsFor
        rw [List.filter_cons_of_pos (by simpa using hk)]
      rw [hcf]
      show (mm.view (replay _ cs (MapChangeCall.run _ s c))).Get k
        = (mm.view (replay _ (callsFor k cs) (MapChangeCall.run _ t c))).Get k
      apply ih
      cases c with
      | Create j v =>
        have hj : j = k := hk
        subst hj
        show (mm.view (mm.Put j v s)).Get j = (mm.view (mm.Put j v t)).Get j
        rw [hmm.get_put, hmm.get_put]
      | Update j o n =>
        have hj : j = k := hk
        subst hj
        show (mm.view (mm.Put j n s)).Get j = (mm.view (mm.Put j n t)).Get j
        rw [hmm.get_put, hmm.get_put]
      | DeleteWithFinal j v =>
        have hj : j = k := hk
        subst hj
        show (mm.view (mm.Delete j s)).Get j = (mm.view (mm.Delete j t)).Get j
        rw [hmm.get_delete, hmm.get_delete]
    · have hcf : callsFor k (c :: cs) = callsFor k cs := by
        unfold callsFor
        rw [List.filter_cons_of_neg (by simpa using hk)]
      rw [hcf]
      show (mm.view (replay _ cs (MapChangeCall.run _ s c))).Get k = _
      apply ih
      rw [← h]
      have hne : k ≠ c.key := fun e => hk e.symm
      cases c with
      | Create j v => exact hmm.get_put_other s j v k hne
      | Update j o n => exact hmm.get_put_other s j n k hne
      | DeleteWithFinal j v => exact hmm.get_delete_other s j k hne

theorem exampleLeft_lawful : exampleLeft.Lawful :=
  listView_lawful _ (by simp)

theorem exampleRight_lawful : exampleRight.Lawful :=
  listView_lawful _ (by simp)

theorem Visit_check {Elt : Type} (ok : Elt → Bool) (visitor : Elt → Unit → Option GoError × Unit)
    (h : ∀ e u, visitor e u = if ok e = true then (none, u) else (some GoError.errStop, u))
    (elems : List Elt) : (Visit elems visitor ()).1 = none ↔ ∀ e ∈ elems, ok e = true := by
  induction elems with
  | nil => simp [Visit]
  | cons e rest ih =>
    rw [List.forall_mem_cons, ← ih, Visit, h e ()]
    cases ok e <;> simp

theorem Visit_stop_iff [DecidableEq Val] (right : Map Key Val) (elems : List (Pair Key Val)) :
    (Visit elems (fun tup (u : Unit) =>
      match right.Get tup.First with
      | (valRight, has) =>
        if !has || tup.Second != valRight then (some GoError.errStop, u) else (none, u))
      ()).1 = none ↔ ∀ tup ∈ elems, right.Get tup.First = (tup.Second, true) := by
  rw [Visit_check (fun tup => decide (right.Get tup.First = (tup.Second, true)))]
  · simp
  · intro e u
    beta_reduce
    generalize right.Get e.First = g
    rcases g with ⟨rv, has⟩
    cases has
    · simp
    · by_cases hv : e.Second = rv
      · simp [hv]
      · simp [hv, Ne.symm hv]

theorem MapEqual_iff [DecidableEq Val] (left right : Map Key Val) :
    MapEqual left right = true
      ↔ left.Len = right.Len ∧ ∀ tup ∈ left.elems, right.Get tup.First = (tup.Second, true) := by
  unfold MapEqual
  by_cases hlen : left.Len = right.Len
  · rw [if_neg (not_not.2 hlen)]
    by_cases hv : (Visit left.elems (fun tup (u : Unit) =>
        match right.Get tup.First with
        | (valRight, has) =>
          if !has || tup.Second != valRight then (some GoError.errStop, u) else (none, u))
        ()).1 = none
    · rw [if_neg (not_not.2 hv)]
      constructor
      · intro _
        exact ⟨hlen, (Visit_stop_iff right left.elems).1 hv⟩
      · intro _
        rfl
    · rw [if_pos hv]
      constructor
      · intro h
        cases h
      · intro h
        exact absurd ((Visit_stop_iff right left.elems).2 h.2) hv
  · rw [if_pos hlen]
    constructor
    · intro h
      cases h
    · intro h
      exact absurd h.1 hlen

/-- Given equal sizes, the one-directional check of `MapEqual` gives the reverse
direction. -/
theorem reverse_of_forward (left right : Map Key Val) (hl : left.Lawful) (hr : right.Lawful)
    (hlen : left.Len = right.Len)
    (hfwd : ∀ tup ∈ left.elems, right.Get tup.First = (tup.Second, true)) :
    ∀ tup ∈ right.elems, left.Get tup.First = (tup.Second, true) := by
  have hsub : left.elems.map Pair.First ⊆ right.elems.map Pair.First := by
    intro k hk
    obtain ⟨p, hp, rfl⟩ := List.mem_map.1 hk
    exact List.mem_map.2 ⟨_, (hr.visit_get p.First p.Second).2 (hfwd p hp), rfl⟩
  have hlength : (right.elems.map Pair.First).length ≤ (left.elems.map Pair.First).length := by
    have h1 := hl.len_eq
    have h2 := hr.len_eq
    rw [hlen, h2] at h1
    simp only [List.length_map]
    exact le_of_eq (by exact_mod_cast h1)
  have hperm := (List.subperm_of_subset hl.visit_once hsub).perm_of_length_le hlength
  intro tup htup
  have hk : tup.First ∈ left.elems.map Pair.First :=
    hperm.symm.subset (List.mem_map.2 ⟨tup, htup, rfl⟩)
  obtain ⟨p, hp, hpk⟩ := List.mem_map.1 hk
  have h1 := hfwd p hp
  rw [hpk] at h1
  have h2 := (hr.visit_get tup.First tup.Second).1 htup
  rw [h1] at h2
  have hv : p.Second = tup.Second := (Prod.mk.inj h2).1
  have h3 := (hl.visit_get p.First p.Second).1 hp
  rw [hpk, hv] at h3
  exact h3

/-- For lawful maps `MapEqual` holds exactly when every key has the same presence
and, when present, the same value in both maps. -/
theorem MapEqual_iff_mirrors [DecidableEq Val] (left right : Map Key Val) (hl : left.Lawful)
    (hr : right.Lawful) :
    MapEqual left right = true ↔ ∀ k, Mirrors (left.Get k) (right.Get k) := by
  rw [MapEqual_iff]
  constructor
  · rintro ⟨hlen, hfwd⟩ k
    have hrev := reverse_of_forward left right hl hr hlen hfwd
    cases hb : (left.Get k).2
    · have hb2 : (right.Get k).2 = false := by
        cases hb2 : (right.Get k).2
        · rfl
        · have hmem := Lawful.mem_of_get hr k hb2
          have := hrev _ hmem
          simp only at this
          simp [this] at hb
      exact ⟨hb.trans hb2.symm, fun h => by rw [hb] at h; cases h⟩
    · have hmem := Lawful.mem_of_get hl k hb
      have := hfwd _ hmem
      simp only at this
      exact ⟨hb.trans (by rw [this]), fun _ => by rw [this]⟩
  · intro hm
    have hfwd : ∀ tup ∈ left.elems, right.Get tup.First = (tup.Second, true) := by
      intro tup htup
      have h1 := (hl.visit_get tup.First tup.Second).1 htup
      obtain ⟨h2, h3⟩ := hm tup.First
      rw [h1] at h2 h3
      exact Prod.ext (h3 rfl).symm h2.symm
    have hbwd : ∀ tup ∈ right.elems, left.Get tup.First = (tup.Second, true) := by
      intro tup htup
      have h1 := (hr.visit_get tup.First tup.Second).1 htup
      obtain ⟨h2, h3⟩ := hm tup.First
      rw [h1] at h2 h3
      have h4 : (left.Get tup.First).2 = true := h2
      exact Prod.ext (h3 h4) h4
    refine ⟨?_, hfwd⟩
    have hsub1 : left.elems.map Pair.First ⊆ right.elems.map Pair.First := by
      intro k hk
      obtain ⟨p, hp, rfl⟩ := List.mem_map.1 hk
      exact List.mem_map.2 ⟨_, (hr.visit_get p.First p.Second).2 (hfwd p hp), rfl⟩
    have hsub2 : right.elems.map Pair.First ⊆ left.elems.map Pair.First := by
      intro k hk
      obtain ⟨p, hp, rfl⟩ := List.mem_map.1 hk
      exact List.mem_map.2 ⟨_, (hl.visit_get p.First p.Second).2 (hbwd p hp), rfl⟩
    have h1 := (List.subperm_of_subset hl.visit_once hsub1).length_le
    have h2 := (List.subperm_of_subset hr.visit_once hsub2).length_le
    simp only [List.length_map] at h1 h2
    rw [hl.len_eq, hr.len_eq]
    exact_mod_cast le_antisymm h1 h2

end Helpers

/-! ## The diffing algorithm -/

/-- C1. For all maps `left` and `right` (lawful or not) and every receiver, the
calls `MapEnumerateDifferences` makes on the receiver are exactly `L ++ R`: the
receiver ends in the state that making the calls `L ++ R` in order leaves it in,
and the recording receiver logs `L ++ R`.  Here `L` walks `left` in visit order
and emits `DeleteWithFinal(k, lv)` if `right` lacks `k`, `Update(k, lv, rv)` if
`right` has `k` with `rv ≠ lv`, nothing otherwise; `R` walks `right` and emits
`Create(k, rv)` if `left` lacks `k`, `Update(k, lv, rv)` if `left` has `k` with
`lv ≠ rv`, nothing otherwise.  The visit of `left` makes the calls `L` and the
visit of `right` the calls `R`, neither stopping early.  No `Create` is among the
calls derived from `left`, no `DeleteWithFinal` among those derived from `right`,
and so no `DeleteWithFinal` is ever made after a `Create`. -/
theorem MapEnumerateDifferences_call_sequence {Key Val ρ : Type} [DecidableEq Val]
    (left right : Map Key Val) (receiver : MapChangeReceiver Key Val ρ) (s : ρ) :
    MapEnumerateDifferences left right receiver s
        = replay receiver (specLeftPass left right ++ specRightPass left right) s
      ∧ diffCalls left right = specLeftPass left right ++ specRightPass left right
      ∧ Visit left.elems (diffLeftVisitor right (recorder Key Val)) []
          = (none, specLeftPass left right)
      ∧ (∀ log, Visit right.elems (diffRightVisitor left (recorder Key Val)) log
          = (none, log ++ specRightPass left right))
      ∧ (∀ c ∈ specLeftPass left right, c.isCreate = false)
      ∧ (∀ c ∈ specRightPass left right, c.isDelete = false)
      ∧ (∀ pre c post, diffCalls left right = pre ++ c :: post → c.isCreate = true →
          ∀ d ∈ post, d.isDelete = false) := by
  have hL : ∀ c ∈ specLeftPass left right, c.isCreate = false := by
    intro c hc
    simp only [specLeftPass, List.mem_filterMap] at hc
    obtain ⟨tup, -, h⟩ := hc
    unfold specLeftEmit at h
    split_ifs at h <;> simp at h <;> subst h <;> rfl
  have hR : ∀ c ∈ specRightPass left right, c.isDelete = false := by
    intro c hc
    simp only [specRightPass, List.mem_filterMap] at hc
    obtain ⟨tup, -, h⟩ := hc
    unfold specRightEmit at h
    split_ifs at h <;> simp at h <;> subst h <;> rfl
  refine ⟨MapEnumerateDifferences_eq_replay left right receiver s, diffCalls_eq left right,
    ?_, ?_, hL, hR, ?_⟩
  · rw [leftVisit_eq, replay_recorder]
    rfl
  · intro log
    rw [rightVisit_eq, replay_recorder]
  intro pre c post hsplit hc d hd
  rw [diffCalls_eq, List.append_eq_append_iff] at hsplit
  rcases hsplit with ⟨a, h1, h2⟩ | ⟨a, h1, h2⟩
  · -- the split point lies in the right pass
    apply hR
    rw [h2]
    exact List.mem_append_right _ (List.mem_cons_of_mem _ hd)
  · -- the split point lies in the left pass, or at its end
    cases a with
    | nil =>
      simp only [List.nil_append] at h2
      apply hR
      rw [← h2]
      exact List.mem_cons_of_mem _ hd
    | cons x xs =>
      simp only [List.cons_append, List.cons.injEq] at h2
      have hmem : c ∈ specLeftPass left right := by
        rw [h1, ← h2.1]
        simp
      rw [hL c hmem] at hc
      cases hc

/-- C2. For lawful `left` and `right`, and a lawful mutable map whose state mirrors
`left`, letting `MapEnumerateDifferences` drive the map through
`MappingReceiverDiscardsPrevious` leaves a state that mirrors `right`: every key
has the presence and value it has in `right`, and `Get` returns literally what
`right.Get` returns once `right` follows the zero-value convention for absent
keys. -/
theorem MapEnumerateDifferences_mirrors_right {Key Val σ : Type} [DecidableEq Key]
    [DecidableEq Val] [Inhabited Val] (left right : Map Key Val) (hl : left.Lawful)
    (hr : right.Lawful) (mm : MutableMap Key Val σ) (hmm : mm.Lawful) (s0 : σ)
    (h0 : ∀ k, Mirrors ((mm.view s0).Get k) (left.Get k)) :
    (∀ k, Mirrors ((mm.view (MapEnumerateDifferences left right
        (MappingReceiverDiscardsPrevious mm.toMappingReceiver) s0)).Get k) (right.Get k))
      ∧ (right.ZeroWhenAbsent → ∀ k, (mm.view (MapEnumerateDifferences left right
        (MappingReceiverDiscardsPrevious mm.toMappingReceiver) s0)).Get k = right.Get k) := by
  have key : ∀ k, Mirrors ((mm.view (MapEnumerateDifferences left right
      (MappingReceiverDiscardsPrevious mm.toMappingReceiver) s0)).Get k) (right.Get k) := by
    intro k
    rw [MapEnumerateDifferences_eq_replay, ← diffCalls_eq,
      get_replay_callsFor mm hmm k _ s0 s0 rfl, callsFor_diffCalls left right hl hr]
    have hk := h0 k
    unfold specCallsFor
    rcases hL : left.Get k with ⟨lv, lb⟩
    rcases hR : right.Get k with ⟨rv, rb⟩
    rw [hL] at hk
    cases lb <;> cases rb
    · show Mirrors ((mm.view s0).Get k) (rv, false)
      have h2 : ((mm.view s0).Get k).2 = false := hk.1
      exact ⟨h2, fun h => by rw [h2] at h; cases h⟩
    · show Mirrors ((mm.view (mm.Put k rv s0)).Get k) (rv, true)
      rw [hmm.get_put]
      exact ⟨rfl, fun _ => rfl⟩
    · show Mirrors ((mm.view (mm.Delete k s0)).Get k) (rv, false)
      rw [hmm.get_delete]
      exact ⟨rfl, fun h => by cases h⟩
    · by_cases h : lv = rv
      · subst h
        simpa using hk
      · simp only [ne_eq, h, not_false_eq_true, if_true]
        show Mirrors ((mm.view (mm.Put k rv (mm.Put k rv s0))).Get k) (rv, true)
        rw [hmm.get_put]
        exact ⟨rfl, fun _ => rfl⟩
  refine ⟨key, fun hz k => ?_⟩
  obtain ⟨h2, h1⟩ := key k
  cases hb : (right.Get k).2
  · rw [hz k hb]
    rw [hb] at h2
    exact hmm.zero_absent _ k h2
  · rw [hb] at h2
    exact Prod.ext (h1 h2) (h2.trans hb.symm)

/-- C2 at the specification's scenario: a list-backed map holding `{a:1, b:2, c:3}`
driven by the diff to `{b:2, c:4, d:5}` reads as the right snapshot at every key. -/
theorem MapEnumerateDifferences_mirrors_right_witness :
    (exampleLeft.Lawful ∧ exampleRight.Lawful ∧ (listMap String Int).Lawful)
      ∧ ((∀ k, Mirrors (((listMap String Int).view (MapEnumerateDifferences exampleLeft
            exampleRight (MappingReceiverDiscardsPrevious (listMap String Int).toMappingReceiver)
            exampleLeft.elems)).Get k) (exampleRight.Get k))
        ∧ (exampleRight.ZeroWhenAbsent → ∀ k, ((listMap String Int).view
            (MapEnumerateDifferences exampleLeft exampleRight
              (MappingReceiverDiscardsPrevious (listMap String Int).toMappingReceiver)
              exampleLeft.elems)).Get k = exampleRight.Get k)) :=
  ⟨⟨exampleLeft_lawful, exampleRight_lawful, listMap_lawful String Int⟩,
    MapEnumerateDifferences_mirrors_right exampleLeft exampleRight exampleLeft_lawful
      exampleRight_lawful (listMap String Int) (listMap_lawful String Int) exampleLeft.elems
      (fun _ => ⟨rfl, fun _ => rfl⟩)⟩

/-- C3, evaluated at `left = {a:1, b:2, c:3}`, `right = {b:2, c:4, d:5}`.  The calls
are `DeleteWithFinal(a,1)`, `Update(c,3,4)`, `Update(c,3,4)`, `Create(d,5)`.  The
first two calls are well-formed from the state implied by `left` and leave the
receiver told that `c` is `4`; the third call is an `Update` of `c` whose old
value is `3`, so the sequence is not well-formed. -/
theorem diffCalls_example_not_wellFormed :
    diffCalls exampleLeft exampleRight
        = [MapChangeCall.DeleteWithFinal "a" 1, MapChangeCall.Update "c" 3 4,
            MapChangeCall.Update "c" 3 4, MapChangeCall.Create "d" 5]
      ∧ wellFormedFrom (impliedState exampleLeft) ((diffCalls exampleLeft exampleRight).take 2)
          = true
      ∧ ((diffCalls exampleLeft exampleRight).take 2).foldl impliedStep
          (impliedState exampleLeft) "c" = some 4
      ∧ wellFormedFrom (impliedState exampleLeft) (diffCalls exampleLeft exampleRight) = false := by
  decide

/-- C4, evaluated at `left = {c:3}`, `right = {c:4}`.  The key `c` receives two
calls, both `Update(c,3,4)`, although the single call `Update(c,3,4)` already
takes a map holding `left` to one holding `right`. -/
theorem diffCalls_changed_not_minimal :
    diffCalls changedLeft changedRight
        = [MapChangeCall.Update "c" 3 4, MapChangeCall.Update "c" 3 4]
      ∧ (callsFor "c" (diffCalls changedLeft changedRight)).length = 2
      ∧ replay (MappingReceiverDiscardsPrevious (listMap String Int).toMappingReceiver)
          [MapChangeCall.Update "c" 3 4] changedLeft.elems = changedRight.elems
      ∧ MapEnumerateDifferences changedLeft changedRight
          (MappingReceiverDiscardsPrevious (listMap String Int).toMappingReceiver)
          changedLeft.elems = changedRight.elems := by
  decide

/-- C5. For lawful `left` and `right` and a key `k` present in both with
`left.Get(k) = lv ≠ rv = right.Get(k)`, the calls that mention `k` are exactly
`Update(k, lv, rv)` twice: the visit of `left` makes one, the visit of `right`
makes the other, and `k` gets no other call. -/
theorem MapEnumerateDifferences_update_twice {Key Val : Type} [DecidableEq Key] [DecidableEq Val]
    (left right : Map Key Val) (hl : left.Lawful) (hr : right.Lawful) (k : Key) (lv rv : Val)
    (hL : left.Get k = (lv, true)) (hR : right.Get k = (rv, true)) (hne : lv ≠ rv) :
    callsFor k (diffCalls left right)
        = [MapChangeCall.Update k lv rv, MapChangeCall.Update k lv rv]
      ∧ callsFor k (Visit left.elems (diffLeftVisitor right (recorder Key Val)) []).2
          = [MapChangeCall.Update k lv rv]
      ∧ callsFor k (Visit right.elems (diffRightVisitor left (recorder Key Val)) []).2
          = [MapChangeCall.Update k lv rv] := by
  refine ⟨?_, ?_, ?_⟩
  · rw [callsFor_diffCalls left right hl hr]
    simp [specCallsFor, hL, hR, hne]
  · rw [leftVisit_eq, replay_recorder]
    show callsFor k ([] ++ specLeftPass left right) = _
    rw [List.nil_append, callsFor_specLeftPass left right hl]
    simp [specLeftEmit, hL, hR, Ne.symm hne]
  · rw [rightVisit_eq, replay_recorder]
    show callsFor k ([] ++ specRightPass left right) = _
    rw [List.nil_append, callsFor_specRightPass left right hr]
    simp [specRightEmit, hL, hR, hne]

/-- C5 at the specification's scenario: key `c` gets `Update(c, 3, 4)` twice, once
from each visit. -/
theorem MapEnumerateDifferences_update_twice_witness :
    (exampleLeft.Lawful ∧ exampleRight.Lawful)
      ∧ (callsFor "c" (diffCalls exampleLeft exampleRight)
          = [MapChangeCall.Update "c" 3 4, MapChangeCall.Update "c" 3 4]
        ∧ callsFor "c" (Visit exampleLeft.elems
            (diffLeftVisitor exampleRight (recorder String Int)) []).2
          = [MapChangeCall.Update "c" 3 4]
        ∧ callsFor "c" (Visit exampleRight.elems
            (diffRightVisitor exampleLeft (recorder String Int)) []).2
          = [MapChangeCall.Update "c" 3 4]) :=
  ⟨⟨exampleLeft_lawful, exampleRight_lawful⟩,
    MapEnumerateDifferences_update_twice exampleLeft exampleRight exampleLeft_lawful
      exampleRight_lawful "c" 3 4 (by decide) (by decide) (by decide)⟩

/-- C6. For lawful `left` and `right` and every key `k`, some call of the diff
mentions `k` if and only if the maps differ at `k` (present in one only, or
present in both with unequal values).  A key only in `left` gets exactly one
call, `DeleteWithFinal(k, leftV)`; a key only in `right` gets exactly one call,
`Create(k, rightV)`. -/
theorem MapEnumerateDifferences_calls_iff_differs {Key Val : Type} [DecidableEq Key]
    [DecidableEq Val] (left right : Map Key Val) (hl : left.Lawful) (hr : right.Lawful)
    (k : Key) :
    ((∃ c ∈ diffCalls left right, c.key = k) ↔ DiffersAt left right k)
      ∧ (∀ lv, left.Get k = (lv, true) → (right.Get k).2 = false →
          callsFor k (diffCalls left right) = [MapChangeCall.DeleteWithFinal k lv])
      ∧ (∀ rv, (left.Get k).2 = false → right.Get k = (rv, true) →
          callsFor k (diffCalls left right) = [MapChangeCall.Create k rv]) := by
  have hcf := callsFor_diffCalls left right hl hr k
  have hex : (∃ c ∈ diffCalls left right, c.key = k) ↔ callsFor k (diffCalls left right) ≠ [] := by
    rw [Ne, callsFor, List.filter_eq_nil_iff]
    simp
  refine ⟨?_, ?_, ?_⟩
  · rw [hex, hcf]
    unfold specCallsFor DiffersAt
    rcases left.Get k with ⟨lv, lb⟩
    rcases right.Get k with ⟨rv, rb⟩
    cases lb <;> cases rb <;> simp
  · intro lv hL hR
    rw [hcf]
    unfold specCallsFor
    rcases hg : right.Get k with ⟨rv, rb⟩
    rw [hg] at hR
    simp only at hR
    subst hR
    simp [hL]
  · intro rv hL hR
    rw [hcf]
    unfold specCallsFor
    rcases hg : left.Get k with ⟨lv, lb⟩
    rw [hg] at hL
    simp only at hL
    subst hL
    simp [hR]

/-- C6 at the specification's scenario `left = {a:1, b:2, c:3}`,
`right = {b:2, c:4, d:5}`: the calls are `DeleteWithFinal(a,1)`, `Update(c,3,4)`
(twice) and `Create(d,5)`, and key `b` gets no call. -/
theorem MapEnumerateDifferences_calls_iff_differs_witness :
    (exampleLeft.Lawful ∧ exampleRight.Lawful)
      ∧ diffCalls exampleLeft exampleRight
          = [MapChangeCall.DeleteWithFinal "a" 1, MapChangeCall.Update "c" 3 4,
              MapChangeCall.Update "c" 3 4, MapChangeCall.Create "d" 5]
      ∧ callsFor "b" (diffCalls exampleLeft exampleRight) = []
      ∧ (((∃ c ∈ diffCalls exampleLeft exampleRight, c.key = "b")
            ↔ DiffersAt exampleLeft exampleRight "b")
        ∧ (∀ lv, exampleLeft.Get "b" = (lv, true) → (exampleRight.Get "b").2 = false →
            callsFor "b" (diffCalls exampleLeft exampleRight)
              = [MapChangeCall.DeleteWithFinal "b" lv])
        ∧ (∀ rv, (exampleLeft.Get "b").2 = false → exampleRight.Get "b" = (rv, true) →
            callsFor "b" (diffCalls exampleLeft exampleRight) = [MapChangeCall.Create "b" rv])) :=
  ⟨⟨exampleLeft_lawful, exampleRight_lawful⟩, by decide, by decide,
    MapEnumerateDifferences_calls_iff_differs exampleLeft exampleRight exampleLeft_lawful
      exampleRight_lawful "b"⟩

/-! ## Equality of maps -/

/-- C7. For lawful `left` and `right`, `MapEqual` returns true if and only if the
maps have identical key sets and identical values per key: every key has the same
presence in both and, when present, the same value.  When both maps follow the
zero-value convention for absent keys this says `left.Get(k) = right.Get(k)` for
all `k`. -/
theorem MapEqual_iff_same_mappings {Key Val : Type} [DecidableEq Val] [Inhabited Val]
    (left right : Map Key Val) (hl : left.Lawful) (hr : right.Lawful) :
    (MapEqual left right = true ↔ ∀ k, Mirrors (left.Get k) (right.Get k))
      ∧ (left.ZeroWhenAbsent → right.ZeroWhenAbsent →
          (MapEqual left right = true ↔ ∀ k, left.Get k = right.Get k)) := by
  have main : MapEqual left right = true ↔ ∀ k, Mirrors (left.Get k) (right.Get k) :=
    MapEqual_iff_mirrors left right hl hr
  refine ⟨main, fun hlz hrz => ?_⟩
  rw [main]
  constructor
  · intro hm k
    obtain ⟨h2, h3⟩ := hm k
    cases hb : (left.Get k).2
    · rw [hlz k hb, hrz k (h2 ▸ hb)]
    · exact Prod.ext (h3 hb) h2
  · intro he k
    rw [he k]
    exact ⟨rfl, fun _ => rfl⟩

/-- C7 at the specification's scenario: `{a:1, b:2, c:3}` and `{b:2, c:4, d:5}`
are not equal, and they do not have the same mappings. -/
theorem MapEqual_iff_same_mappings_witness :
    (exampleLeft.Lawful ∧ exampleRight.Lawful)
      ∧ MapEqual exampleLeft exampleRight = false
      ∧ ((MapEqual exampleLeft exampleRight = true
            ↔ ∀ k, Mirrors (exampleLeft.Get k) (exampleRight.Get k))
        ∧ (exampleLeft.ZeroWhenAbsent → exampleRight.ZeroWhenAbsent →
            (MapEqual exampleLeft exampleRight = true
              ↔ ∀ k, exampleLeft.Get k = exampleRight.Get k))) :=
  ⟨⟨exampleLeft_lawful, exampleRight_lawful⟩, by decide,
    MapEqual_iff_same_mappings exampleLeft exampleRight exampleLeft_lawful exampleRight_lawful⟩

/-- C8. For all maps `left` and `right`, `MapEqual` returns true if and only if
`left.Len() == right.Len()` and every entry `(k, v)` visited in `left` satisfies
`right.Get(k) = (v, true)`.  When both maps are lawful (so sizes count entries and
a key has at most one value) and the sizes are equal, this one-directional check
implies the reverse: every entry `(k, v)` of `right` satisfies
`left.Get(k) = (v, true)`. -/
theorem MapEqual_iff_len_and_forward {Key Val : Type} [DecidableEq Val]
    (left right : Map Key Val) :
    (MapEqual left right = true
        ↔ left.Len = right.Len ∧ ∀ k v, Pair.mk k v ∈ left.elems → right.Get k = (v, true))
      ∧ (left.Lawful → right.Lawful → left.Len = right.Len →
          (∀ k v, Pair.mk k v ∈ left.elems → right.Get k = (v, true)) →
          ∀ k v, Pair.mk k v ∈ right.elems → left.Get k = (v, true)) := by
  constructor
  · rw [MapEqual_iff]
    constructor
    · rintro ⟨h1, h2⟩
      exact ⟨h1, fun k v hkv => h2 _ hkv⟩
    · rintro ⟨h1, h2⟩
      exact ⟨h1, fun tup htup => h2 tup.First tup.Second htup⟩
  · intro hl hr hlen hfwd k v hkv
    exact reverse_of_forward left right hl hr hlen
      (fun tup htup => hfwd tup.First tup.Second htup) _ hkv

/-- C8 at a concrete pair: `{c:3}` against `{c:4}` has equal sizes but fails the
one-directional check, so `MapEqual` is false. -/
theorem MapEqual_iff_len_and_forward_witness :
    MapEqual changedLeft changedRight = false
      ∧ ((MapEqual changedLeft changedRight = true
          ↔ changedLeft.Len = changedRight.Len
            ∧ ∀ k v, Pair.mk k v ∈ changedLeft.elems → changedRight.Get k = (v, true))
        ∧ (changedLeft.Lawful → changedRight.Lawful → changedLeft.Len = changedRight.Len →
            (∀ k v, Pair.mk k v ∈ changedLeft.elems → changedRight.Get k = (v, true)) →
            ∀ k v, Pair.mk k v ∈ changedRight.elems → changedLeft.Get k = (v, true))) :=
  ⟨by decide, MapEqual_iff_len_and_forward changedLeft changedRight⟩

/-- C9. For every map `m` whose visited entries agree with `Get`,
`MapEqual(m, m)` returns true. -/
theorem MapEqual_self {Key Val : Type} [DecidableEq Val] (m : Map Key Val)
    (h : ∀ k v, Pair.mk k v ∈ m.elems → m.Get k = (v, true)) : MapEqual m m = true := by
  rw [MapEqual_iff]
  exact ⟨rfl, fun tup htup => h tup.First tup.Second htup⟩

/-- C9 at the map `{a:1, b:2, c:3}`. -/
theorem MapEqual_self_witness :
    (∀ k v, Pair.mk k v ∈ exampleLeft.elems → exampleLeft.Get k = (v, true))
      ∧ MapEqual exampleLeft exampleLeft = true :=
  ⟨fun k v => (exampleLeft_lawful.visit_get k v).1,
    MapEqual_self exampleLeft (fun k v => (exampleLeft_lawful.visit_get k v).1)⟩

/-! ## Get-or-add -/

/-- C10. For a lawful mutable map, a key `k`, a flag `want` and a generator `gen`:
if `Get(k) = (v, true)` then `MapGetAdd` returns `v`; if `k` is absent and `want`
is true it returns the value `gen(k)` and afterwards `Get(k) = (gen(k), true)`; if
`k` is absent and `want` is false it returns the zero value and afterwards
`Get(k) = (zero, false)`. -/
theorem MapGetAdd_result {Key Val σ γ : Type} [Inhabited Val] (mm : MutableMap Key Val σ)
    (hmm : mm.Lawful) (k : Key) (want : Bool) (gen : Key → γ → Val × γ) (s : σ) (g : γ) :
    (∀ v, (mm.view s).Get k = (v, true) → (MapGetAdd mm k want gen (s, g)).1 = v)
      ∧ (((mm.view s).Get k).2 = false → want = true →
          (MapGetAdd mm k want gen (s, g)).1 = (gen k g).1
            ∧ (mm.view (MapGetAdd mm k want gen (s, g)).2.1).Get k = ((gen k g).1, true))
      ∧ (((mm.view s).Get k).2 = false → want = false →
          (MapGetAdd mm k want gen (s, g)).1 = default
            ∧ (mm.view (MapGetAdd mm k want gen (s, g)).2.1).Get k = (default, false)) := by
  refine ⟨?_, ?_, ?_⟩
  · intro v hv
    simp [MapGetAdd, hv]
  · intro hb hw
    have hz := hmm.zero_absent s k hb
    subst hw
    have hres : MapGetAdd mm k true gen (s, g)
        = ((gen k g).1, (mm.Put k (gen k g).1 s, (gen k g).2)) := by
      simp [MapGetAdd, hz]
    rw [hres]
    exact ⟨rfl, hmm.get_put s k _⟩
  · intro hb hw
    have hz := hmm.zero_absent s k hb
    subst hw
    have hres : MapGetAdd mm k false gen (s, g) = (default, (s, g)) := by
      simp [MapGetAdd, hz]
    rw [hres]
    exact ⟨rfl, hz⟩

/-- C10 at the specification's scenario: on an empty map `GetAdd(m, "x", true, gen)`
returns `gen("x")` and leaves `Get("x") = (gen("x"), true)`, and
`GetAdd(m, "y", false, gen)` returns zero and leaves `Get("y") = (zero, false)`. -/
theorem MapGetAdd_result_witness :
    (listMap String Int).Lawful
      ∧ ((MapGetAdd (listMap String Int) "x" true exampleGen ([], ())).1
            = (exampleGen "x" ()).1
          ∧ ((listMap String Int).view
              (MapGetAdd (listMap String Int) "x" true exampleGen ([], ())).2.1).Get "x"
            = ((exampleGen "x" ()).1, true))
      ∧ ((MapGetAdd (listMap String Int) "y" false exampleGen ([], ())).1 = default
          ∧ ((listMap String Int).view
              (MapGetAdd (listMap String Int) "y" false exampleGen ([], ())).2.1).Get "y"
            = (default, false)) :=
  ⟨listMap_lawful String Int,
    (MapGetAdd_result (listMap String Int) (listMap_lawful String Int) "x" true exampleGen
      [] ()).2.1 rfl rfl,
    (MapGetAdd_result (listMap String Int) (listMap_lawful String Int) "y" false exampleGen
      [] ()).2.2 rfl rfl⟩

/-- C11. `MapGetAdd` returns the map and the generator exactly as it found them
whenever `k` is already present or `want` is false; a map that logs its writes
logs nothing and a generator that logs its invocations logs nothing.  When `k`
is absent and `want` is true the generator is invoked once, with `k`, and the map
gets the single write `Put(k, gen(k))`; on a lawful map every other key reads as
before. -/
theorem MapGetAdd_frame {Key Val σ γ : Type} [Inhabited Val] (mm : MutableMap Key Val σ)
    (k : Key) (want : Bool) (gen : Key → γ → Val × γ) (s : σ) (g : γ) :
    ((((mm.view s).Get k).2 = true ∨ want = false) →
        (MapGetAdd mm k want gen (s, g)).2 = (s, g))
      ∧ (((mm.view s).Get k).2 = false → want = true →
          (MapGetAdd mm k want gen (s, g)).2 = (mm.Put k (gen k g).1 s, (gen k g).2))
      ∧ (∀ (f : Key → Val) (log : List (MappingCall Key Val)) (glog : List Key),
          ((((mm.view s).Get k).2 = true ∨ want = false) →
              (MapGetAdd (tracedMap mm id) k want (tracedGen f) ((s, log), glog)).2
                = ((s, log), glog))
            ∧ (((mm.view s).Get k).2 = false → want = true →
              (MapGetAdd (tracedMap mm id) k want (tracedGen f) ((s, log), glog)).2
                = ((mm.Put k (f k) s, log ++ [MappingCall.Put k (f k)]), glog ++ [k])))
      ∧ (mm.Lawful → ((mm.view s).Get k).2 = false → want = true →
          ∀ j, j ≠ k →
            (mm.view (MapGetAdd mm k want gen (s, g)).2.1).Get j = (mm.view s).Get j) := by
  have unchanged : ∀ {τ δ : Type} (m : MutableMap Key Val τ) (h : Key → δ → Val × δ) (t : τ)
      (d : δ), (((m.view t).Get k).2 = true ∨ want = false) →
      (MapGetAdd m k want h (t, d)).2 = (t, d) := by
    intro τ δ m h t d hc
    unfold MapGetAdd
    rcases hg : (m.view t).Get k with ⟨v, b⟩
    cases b
    · rcases hc with hc | hc
      · rw [hg] at hc
        cases hc
      · subst hc
        simp
    · simp
  have added : ∀ {τ δ : Type} (m : MutableMap Key Val τ) (h : Key → δ → Val × δ) (t : τ)
      (d : δ), ((m.view t).Get k).2 = false → want = true →
      (MapGetAdd m k want h (t, d)).2 = (m.Put k (h k d).1 t, (h k d).2) := by
    intro τ δ m h t d hb hw
    unfold MapGetAdd
    rcases hg : (m.view t).Get k with ⟨v, b⟩
    rw [hg] at hb
    simp only at hb
    subst hb
    subst hw
    simp
  refine ⟨unchanged mm gen s g, added mm gen s g, ?_, ?_⟩
  · intro f log glog
    exact ⟨fun hc => unchanged (tracedMap mm id) (tracedGen f) (s, log) glog hc,
      fun hb hw => added (tracedMap mm id) (tracedGen f) (s, log) glog hb hw⟩
  · intro hmm hb hw j hj
    rw [added mm gen s g hb hw]
    exact hmm.get_put_other s k _ j hj

/-- C11 on an empty list-backed map: `GetAdd(m, "y", false, gen)` leaves the map
and the generator untouched, `GetAdd(m, "x", true, gen)` makes the one write
`Put("x", gen("x"))`. -/
theorem MapGetAdd_frame_witness :
    (MapGetAdd (listMap String Int) "y" false exampleGen ([], ())).2 = ([], ())
      ∧ (MapGetAdd (listMap String Int) "x" true exampleGen ([], ())).2
          = ((listMap String Int).Put "x" (exampleGen "x" ()).1 [], (exampleGen "x" ()).2) :=
  ⟨(MapGetAdd_frame (listMap String Int) "y" false exampleGen [] ()).1 (Or.inr rfl),
    (MapGetAdd_frame (listMap String Int) "x" true exampleGen [] ()).2.1 rfl rfl⟩

/-! ## Forks -/

/-- C12. A call on a fork is the same call, with the same arguments, made on each
child in slice order and nothing else: the state after the fork's call is the
state after the children's calls made one after the other, and children that log
their tag with each call they get leave exactly one entry each, in slice order.
An empty fork changes nothing.  This holds for `Put` and `Delete` of
`MappingReceiverFork` and for `Create`, `Update` and `DeleteWithFinal` of
`MapChangeReceiverFork`. -/
theorem Fork_broadcasts_in_order {Key Val ω ι : Type} :
    (∀ (rs : MappingReceiverFork Key Val ω) k v w,
        MappingReceiverFork.Put rs k v w = rs.foldl (fun st r => r.Put k v st) w)
      ∧ (∀ (rs : MappingReceiverFork Key Val ω) k w,
        MappingReceiverFork.Delete rs k w = rs.foldl (fun st r => r.Delete k st) w)
      ∧ (∀ (rs : MapChangeReceiverFork Key Val ω) k v w,
        MapChangeReceiverFork.Create rs k v w = rs.foldl (fun st r => r.Create k v st) w)
      ∧ (∀ (rs : MapChangeReceiverFork Key Val ω) k o n w,
        MapChangeReceiverFork.Update rs k o n w = rs.foldl (fun st r => r.Update k o n st) w)
      ∧ (∀ (rs : MapChangeReceiverFork Key Val ω) k v w,
        MapChangeReceiverFork.DeleteWithFinal rs k v w
          = rs.foldl (fun st r => r.DeleteWithFinal k v st) w)
      ∧ (∀ (tags : List ι) k v log,
        MappingReceiverFork.Put (tags.map (taggedRecorder Key Val)) k v log
          = log ++ tags.map (fun i => (i, MappingCall.Put k v)))
      ∧ (∀ (tags : List ι) k log,
        MappingReceiverFork.Delete (tags.map (taggedRecorder Key Val)) k log
          = log ++ tags.map (fun i => (i, MappingCall.Delete k)))
      ∧ (∀ (tags : List ι) k v log,
        MapChangeReceiverFork.Create (tags.map (taggedChangeRecorder Key Val)) k v log
          = log ++ tags.map (fun i => (i, MapChangeCall.Create k v)))
      ∧ (∀ (tags : List ι) k o n log,
        MapChangeReceiverFork.Update (tags.map (taggedChangeRecorder Key Val)) k o n log
          = log ++ tags.map (fun i => (i, MapChangeCall.Update k o n)))
      ∧ (∀ (tags : List ι) k v log,
        MapChangeReceiverFork.DeleteWithFinal (tags.map (taggedChangeRecorder Key Val)) k v log
          = log ++ tags.map (fun i => (i, MapChangeCall.DeleteWithFinal k v))) := by
  refine ⟨?_, ?_, ?_, ?_, ?_, ?_, ?_, ?_, ?_, ?_⟩
  · intro rs k v w
    induction rs generalizing w with
    | nil => rfl
    | cons r rest ih => exact ih (r.Put k v w)
  · intro rs k w
    induction rs generalizing w with
    | nil => rfl
    | cons r rest ih => exact ih (r.Delete k w)
  · intro rs k v w
    induction rs generalizing w with
    | nil => rfl
    | cons r rest ih => exact ih (r.Create k v w)
  · intro rs k o n w
    induction rs generalizing w with
    | nil => rfl
    | cons r rest ih => exact ih (r.Update k o n w)
  · intro rs k v w
    induction rs generalizing w with
    | nil => rfl
    | cons r rest ih => exact ih (r.DeleteWithFinal k v w)
  · intro tags k v log
    induction tags generalizing log with
    | nil => simp [MappingReceiverFork.Put]
    | cons i rest ih =>
      simp only [List.map_cons, MappingReceiverFork.Put]
      rw [ih]
      simp [taggedRecorder]
  · intro tags k log
    induction tags generalizing log with
    | nil => simp [MappingReceiverFork.Delete]
    | cons i rest ih =>
      simp only [List.map_cons, MappingReceiverFork.Delete]
      rw [ih]
      simp [taggedRecorder]
  · intro tags k v log
    induction tags generalizing log with
    | nil => simp [MapChangeReceiverFork.Create]
    | cons i rest ih =>
      simp only [List.map_cons, MapChangeReceiverFork.Create]
      rw [ih]
      simp [taggedChangeRecorder]
  · intro tags k o n log
    induction tags generalizing log with
    | nil => simp [MapChangeReceiverFork.Update]
    | cons i rest ih =>
      simp only [List.map_cons, MapChangeReceiverFork.Update]
      rw [ih]
      simp [taggedChangeRecorder]
  · intro tags k v log
    induction tags generalizing log with
    | nil => simp [MapChangeReceiverFork.DeleteWithFinal]
    | cons i rest ih =>
      simp only [List.map_cons, MapChangeReceiverFork.DeleteWithFinal]
      rw [ih]
      simp [taggedChangeRecorder]

/-! ## The discard-previous adapter -/

/-- C13. For every inner receiver and every finite sequence of change calls fed to
`MappingReceiverDiscardsPrevious(inner)`, the calls made on `inner` are the
call-wise translation in the same order: `Create(k,v)` gives `Put(k,v)`,
`Update(k,old,new)` gives `Put(k,new)`, `DeleteWithFinal(k,last)` gives
`Delete(k)`.  In particular `Create(k,v)`, `Update(k,v,v2)`,
`DeleteWithFinal(k,v2)` gives exactly `Put(k,v)`, `Put(k,v2)`, `Delete(k)`. -/
theorem MappingReceiverDiscardsPrevious_translates {Key Val ρ : Type}
    (inner : MappingReceiver Key Val ρ) (events : List (MapChangeCall Key Val)) (s : ρ) :
    replay (MappingReceiverDiscardsPrevious inner) events s
        = replayMapping inner (events.map MapChangeCall.discardPrevious) s
      ∧ (∀ log, replay (MappingReceiverDiscardsPrevious (mappingRecorder Key Val)) events log
          = log ++ events.map MapChangeCall.discardPrevious)
      ∧ (∀ k v v2, replay (MappingReceiverDiscardsPrevious (mappingRecorder Key Val))
          [MapChangeCall.Create k v, MapChangeCall.Update k v v2,
            MapChangeCall.DeleteWithFinal k v2] []
          = [MappingCall.Put k v, MappingCall.Put k v2, MappingCall.Delete k]) := by
  refine ⟨?_, ?_, ?_⟩
  · induction events generalizing s with
    | nil => rfl
    | cons c cs ih =>
      show replay _ cs (MapChangeCall.run _ s c)
        = replayMapping inner (cs.map MapChangeCall.discardPrevious)
            (MappingCall.run inner s c.discardPrevious)
      rw [ih]
      cases c <;> rfl
  · intro log
    induction events generalizing log with
    | nil => simp [replay]
    | cons c cs ih =>
      show replay _ cs (MapChangeCall.run _ log c) = _
      rw [ih]
      cases c <;>
        simp [MapChangeCall.run, MappingReceiverDiscardsPrevious, mappingRecorder,
          MapChangeCall.discardPrevious]
  · intro k v v2
    rfl

/-! ## The key-observed mutable map -/

/-- C14. On the map returned by `MutableMapWithKeyObserver(mm, obs)`, `Put(k, v)` is
`mm.Put(k, v)` followed by `obs.Add(k)` and `Delete(k)` is `mm.Delete(k)` followed
by `obs.Remove(k)`.  With a map and an observer that log into one shared log, a
`Put` logs exactly the write and then the `Add`, a `Delete` exactly the write and
then the `Remove`, whatever the map held before. -/
theorem MutableMapWithKeyObserver_writes_then_signals {Key Val ω : Type}
    (mm : MutableMap Key Val ω) (obs : SetChangeReceiver Key ω) (k : Key) (v : Val) (w : ω) :
    (MutableMapWithKeyObserver mm obs).Put k v w = obs.Add k (mm.Put k v w)
      ∧ (MutableMapWithKeyObserver mm obs).Delete k w = obs.Remove k (mm.Delete k w)
      ∧ (∀ (log : List (MappingCall Key Val ⊕ SetChangeCall Key)),
          (MutableMapWithKeyObserver (tracedMap mm Sum.inl) (tracedObserver Sum.inr)).Put k v
              (w, log)
            = (mm.Put k v w,
                log ++ [Sum.inl (MappingCall.Put k v), Sum.inr (SetChangeCall.Add k)]))
      ∧ (∀ (log : List (MappingCall Key Val ⊕ SetChangeCall Key)),
          (MutableMapWithKeyObserver (tracedMap mm Sum.inl) (tracedObserver Sum.inr)).Delete k
              (w, log)
            = (mm.Delete k w,
                log ++ [Sum.inl (MappingCall.Delete k), Sum.inr (SetChangeCall.Remove k)])) := by
  refine ⟨rfl, rfl, ?_, ?_⟩
  · intro log
    simp [MutableMapWithKeyObserver, tracedMap, tracedObserver]
  · intro log
    simp [MutableMapWithKeyObserver, tracedMap, tracedObserver]

/-! ## The transform adapter -/

/-- C15. For a `TransformMappingReceiver` with key func `fk`, value func `fv` and
inner receiver `Inner`: `Put(k, v)` is exactly the call `Inner.Put(fk(k), fv(v))`
and `Delete(k)` exactly the call `Inner.Delete(fk(k))`.  With funcs and an inner
receiver that log, `Put` logs one application of `fk`, one of `fv` and one
`Inner.Put`, and `Delete` logs one application of `fk` and one `Inner.Delete`,
with no application of `fv`. -/
theorem TransformMappingReceiver_forwards
    {KeyOriginal KeyTransformed ValOriginal ValTransformed ω : Type}
    (fk : KeyOriginal → KeyTransformed) (fv : ValOriginal → ValTransformed) :
    (∀ (inner : MappingReceiver KeyTransformed ValTransformed ω) k v w,
        (pureTransform fk fv inner).Put k v w = inner.Put (fk k) (fv v) w)
      ∧ (∀ (inner : MappingReceiver KeyTransformed ValTransformed ω) k w,
        (pureTransform fk fv inner).Delete k w = inner.Delete (fk k) w)
      ∧ (∀ k v log, (tracedTransform fk fv).Put k v log
          = log ++ [TransformCall.TransformKey k, TransformCall.TransformVal v,
              TransformCall.InnerPut (fk k) (fv v)])
      ∧ (∀ k log, (tracedTransform fk fv).Delete k log
          = log ++ [TransformCall.TransformKey k, TransformCall.InnerDelete (fk k)])
      ∧ (∀ (xr : TransformMappingReceiver KeyOriginal KeyTransformed ValOriginal
            ValTransformed ω) k v w,
          xr.Put k v w = xr.Inner.Put (xr.TransformKey k w).1
            (xr.TransformVal v (xr.TransformKey k w).2).1
            (xr.TransformVal v (xr.TransformKey k w).2).2)
      ∧ (∀ (xr : TransformMappingReceiver KeyOriginal KeyTransformed ValOriginal
            ValTransformed ω) k w,
          xr.Delete k w = xr.Inner.Delete (xr.TransformKey k w).1 (xr.TransformKey k w).2) := by
  refine ⟨?_, ?_, ?_, ?_, ?_, ?_⟩
  · intro inner k v w
    rfl
  · intro inner k w
    rfl
  · intro k v log
    simp [TransformMappingReceiver.Put, tracedTransform]
  · intro k log
    simp [TransformMappingReceiver.Delete, tracedTransform]
  · intro xr k v w
    rfl
  · intro xr k w
    rfl

/-! ## Bulk operations -/

/-- A visit whose visitor never returns an error runs the visitor's effect on every
element, in order, and returns nil. -/
theorem Visit_total {Elt ρ : Type} (step : Elt → ρ → ρ) (elems : List Elt) (s : ρ) :
    Visit elems (fun e st => (none, step e st)) s
      = (none, elems.foldl (fun st e => step e st) s) := by
  induction elems generalizing s with
  | nil => rfl
  | cons e rest ih =>
    rw [Visit]
    exact ih (step e s)

theorem replayMapping_map {Key Val ρ Elt : Type} (receiver : MappingReceiver Key Val ρ)
    (f : Elt → MappingCall Key Val) (elems : List Elt) (s : ρ) :
    replayMapping receiver (elems.map f) s
      = elems.foldl (fun st e => MappingCall.run receiver st (f e)) s := by
  simp [replayMapping, List.foldl_map]

theorem foldl_traced {Elt σ E : Type} (step : Elt → σ → σ) (ev : Elt → E) (elems : List Elt)
    (s : σ) (log : List E) :
    elems.foldl (fun (st : σ × List E) e => (step e st.1, st.2 ++ [ev e])) (s, log)
      = (elems.foldl (fun st e => step e st) s, log ++ elems.map ev) := by
  induction elems generalizing s log with
  | nil => simp
  | cons e rest ih =>
    simp only [List.foldl_cons, List.map_cons]
    rw [ih]
    simp

/-- C17. `MapAddAll(m, ps)` calls `m.Put(k, v)` once for each pair of `ps`, in order,
and `MapRemoveAll(m, ps)` calls `m.Delete(k)` once for each pair of `ps`, in
order: the map ends in the state those calls leave, and a map that logs its writes
logs exactly those calls.  `MapRemoveAll` uses only the keys: two sequences with
the same keys in the same order have the same effect. -/
theorem MapAddAll_MapRemoveAll_calls {Key Val σ : Type} (mm : MutableMap Key Val σ)
    (ps : List (Pair Key Val)) (s : σ) :
    MapAddAll mm ps s
        = replayMapping mm.toMappingReceiver
            (ps.map (fun p => MappingCall.Put p.First p.Second)) s
      ∧ MapRemoveAll mm ps s
        = replayMapping mm.toMappingReceiver (ps.map (fun p => MappingCall.Delete p.First)) s
      ∧ (∀ (log : List (MappingCall Key Val)),
          MapAddAll (tracedMap mm id) ps (s, log)
            = (MapAddAll mm ps s, log ++ ps.map (fun p => MappingCall.Put p.First p.Second)))
      ∧ (∀ (log : List (MappingCall Key Val)),
          MapRemoveAll (tracedMap mm id) ps (s, log)
            = (MapRemoveAll mm ps s, log ++ ps.map (fun p => MappingCall.Delete p.First)))
      ∧ (∀ (qs : List (Pair Key Val)), ps.map Pair.First = qs.map Pair.First →
          MapRemoveAll mm ps s = MapRemoveAll mm qs s
            ∧ ∀ (log : List (MappingCall Key Val)),
              MapRemoveAll (tracedMap mm id) ps (s, log)
                = MapRemoveAll (tracedMap mm id) qs (s, log)) := by
  have hadd : ∀ {τ : Type} (m : MutableMap Key Val τ) (t : τ),
      MapAddAll m ps t = ps.foldl (fun st p => m.Put p.First p.Second st) t := by
    intro τ m t
    unfold MapAddAll
    rw [Visit_total (fun (p : Pair Key Val) st => m.Put p.First p.Second st)]
  have hrem : ∀ {τ : Type} (m : MutableMap Key Val τ) (xs : List (Pair Key Val)) (t : τ),
      MapRemoveAll m xs t = (xs.map Pair.First).foldl (fun st k => m.Delete k st) t := by
    intro τ m xs t
    unfold MapRemoveAll
    rw [Visit_total (fun (p : Pair Key Val) st => m.Delete p.First st), List.foldl_map]
  refine ⟨?_, ?_, ?_, ?_, ?_⟩
  · rw [hadd, replayMapping_map]
    rfl
  · rw [hrem, replayMapping_map, List.foldl_map]
    rfl
  · intro log
    rw [hadd, hadd]
    exact foldl_traced (fun p st => mm.Put p.First p.Second st)
      (fun p => MappingCall.Put p.First p.Second) ps s log
  · intro log
    rw [hrem, hrem, List.foldl_map, List.foldl_map]
    exact foldl_traced (fun p st => mm.Delete p.First st)
      (fun p => MappingCall.Delete p.First) ps s log
  · intro qs hkeys
    refine ⟨?_, fun log => ?_⟩
    · rw [hrem, hrem, hkeys]
    · rw [hrem, hrem, hkeys]

/-- C17 at two sequences with the keys `a`, `b` and different values: both make the
calls `Delete(a)`, `Delete(b)` on a list-backed map holding `{a:1, b:2, c:3}`. -/
theorem MapAddAll_MapRemoveAll_calls_witness :
    MapRemoveAll (tracedMap (listMap String Int) id) [Pair.mk "a" 1, Pair.mk "b" 2]
        (exampleLeft.elems, [])
      = ([Pair.mk "c" 3], [MappingCall.Delete "a", MappingCall.Delete "b"])
    ∧ (MapRemoveAll (listMap String Int) [Pair.mk "a" 1, Pair.mk "b" 2] exampleLeft.elems
        = MapRemoveAll (listMap String Int) [Pair.mk "a" 7, Pair.mk "b" 9] exampleLeft.elems
      ∧ ∀ (log : List (MappingCall String Int)),
          MapRemoveAll (tracedMap (listMap String Int) id) [Pair.mk "a" 1, Pair.mk "b" 2]
              (exampleLeft.elems, log)
            = MapRemoveAll (tracedMap (listMap String Int) id) [Pair.mk "a" 7, Pair.mk "b" 9]
              (exampleLeft.elems, log)) :=
  ⟨by decide,
    (MapAddAll_MapRemoveAll_calls (listMap String Int) [Pair.mk "a" 1, Pair.mk "b" 2]
      exampleLeft.elems).2.2.2.2 [Pair.mk "a" 7, Pair.mk "b" 9] rfl⟩

/-! ## Function adapters -/

/-- C18. For `MappingReceiverFuncs` and `MapChangeReceiverFuncs` any callback may
be nil.  An operation whose callback is nil returns with the state untouched, so
it makes no call; an operation whose callback is present is exactly one
invocation of that callback with the operation's arguments: `Put` gives
`OnPut(k,v)`, `Delete` gives `OnDelete(k)`, `Create` gives `OnCreate(k,v)`,
`Update` gives `OnUpdate(k,old,new)`, `DeleteWithFinal` gives `OnDelete(k,v)`.
The other callbacks, nil or not, play no part. -/
theorem ReceiverFuncs_nil_or_once {Key Val ω : Type} (k : Key) (v old new : Val) (w : ω) :
    (∀ onDelete, (MappingReceiverFuncs.mk (none : Option (Key → Val → ω → ω)) onDelete).Put k v w
        = w)
      ∧ (∀ onPut onDelete, (MappingReceiverFuncs.mk (some onPut) onDelete).Put k v w
        = onPut k v w)
      ∧ (∀ (onPut : Option (Key → Val → ω → ω)),
        (MappingReceiverFuncs.mk onPut (none : Option (Key → ω → ω))).Delete k w = w)
      ∧ (∀ (onPut : Option (Key → Val → ω → ω)) onDelete,
        (MappingReceiverFuncs.mk onPut (some onDelete)).Delete k w = onDelete k w)
      ∧ (∀ onUpdate onDelete,
        (MapChangeReceiverFuncs.mk (none : Option (Key → Val → ω → ω)) onUpdate onDelete).Create
          k v w = w)
      ∧ (∀ onCreate onUpdate onDelete,
        (MapChangeReceiverFuncs.mk (some onCreate) onUpdate onDelete : MapChangeReceiverFuncs
          Key Val ω).Create k v w = onCreate k v w)
      ∧ (∀ onCreate onDelete,
        (MapChangeReceiverFuncs.mk onCreate (none : Option (Key → Val → Val → ω → ω))
          onDelete).Update k old new w = w)
      ∧ (∀ onCreate onUpdate onDelete,
        (MapChangeReceiverFuncs.mk onCreate (some onUpdate) onDelete : MapChangeReceiverFuncs
          Key Val ω).Update k old new w = onUpdate k old new w)
      ∧ (∀ onCreate onUpdate,
        (MapChangeReceiverFuncs.mk onCreate onUpdate
          (none : Option (Key → Val → ω → ω))).DeleteWithFinal k v w = w)
      ∧ (∀ onCreate onUpdate onDelete,
        (MapChangeReceiverFuncs.mk onCreate onUpdate (some onDelete) : MapChangeReceiverFuncs
          Key Val ω).DeleteWithFinal k v w = onDelete k v w) :=
  ⟨fun _ => rfl, fun _ _ => rfl, fun _ => rfl, fun _ _ => rfl, fun _ _ => rfl,
    fun _ _ _ => rfl, fun _ _ => rfl, fun _ _ _ => rfl, fun _ _ => rfl, fun _ _ _ => rfl⟩

/-- C20. `MappingReceiverFuncs` used as a `MapChangeReceiver` is
`MappingReceiverDiscardsPrevious` applied to the same value used as a
`MappingReceiver`: the two receivers are equal, so every sequence of change
calls has the same effect on both.  `Create(k,v)` is `OnPut(k,v)`,
`Update(k,old,new)` is `OnPut(k,new)` and `DeleteWithFinal(k,last)` is
`OnDelete(k)`, each a no-op when the callback is nil. -/
theorem MappingReceiverFuncs_change_eq_discard {Key Val ω : Type}
    (mrf : MappingReceiverFuncs Key Val ω) :
    mrf.asMapChangeReceiver = MappingReceiverDiscardsPrevious mrf.asMappingReceiver
      ∧ (∀ events w, replay mrf.asMapChangeReceiver events w
          = replay (MappingReceiverDiscardsPrevious mrf.asMappingReceiver) events w)
      ∧ (∀ k v w, mrf.Create k v w
          = (MappingReceiverDiscardsPrevious mrf.asMappingReceiver).Create k v w)
      ∧ (∀ k old new w, mrf.Update k old new w
          = (MappingReceiverDiscardsPrevious mrf.asMappingReceiver).Update k old new w)
      ∧ (∀ k last w, mrf.DeleteWithFinal k last w
          = (MappingReceiverDiscardsPrevious mrf.asMappingReceiver).DeleteWithFinal k last w)
      ∧ (∀ k v w, mrf.Create k v w
          = match mrf.OnPut with
            | some onPut => onPut k v w
            | none => w)
      ∧ (∀ k (old new : Val) w, mrf.Update k old new w
          = match mrf.OnPut with
            | some onPut => onPut k new w
            | none => w)
      ∧ (∀ k (last : Val) w, mrf.DeleteWithFinal k last w
          = match mrf.OnDelete with
            | some onDelete => onDelete k w
            | none => w) := by
  have heq : mrf.asMapChangeReceiver = MappingReceiverDiscardsPrevious mrf.asMappingReceiver := by
    rcases mrf with ⟨onPut, onDelete⟩
    cases onPut <;> cases onDelete <;> rfl
  refine ⟨heq, ?_, ?_, ?_, ?_, ?_, ?_, ?_⟩
  · intro events w
    rw [heq]
  · intro k v w
    exact congrFun (congrFun (congrFun (congrArg MapChangeReceiver.Create heq) k) v) w
  · intro k old new w
    exact congrFun (congrFun (congrFun (congrFun (congrArg MapChangeReceiver.Update heq) k)
      old) new) w
  · intro k last w
    exact congrFun (congrFun (congrFun (congrArg MapChangeReceiver.DeleteWithFinal heq) k)
      last) w
  · intro k v w
    rfl
  · intro k old new w
    rfl
  · intro k last w
    rfl

/-! ## Applying a whole map, and equality against the diff -/

theorem MapApply_eq_foldl {Key Val ρ : Type} (m : Map Key Val) (r : MappingReceiver Key Val ρ)
    (s : ρ) : MapApply m r s = m.elems.foldl (fun st p => r.Put p.First p.Second st) s := by
  have hv : MappingReceiverAsVisitor r
      = fun (tup : Pair Key Val) st => (none, r.Put tup.First tup.Second st) := rfl
  unfold MapApply
  rw [hv, Visit_total (fun (p : Pair Key Val) st => r.Put p.First p.Second st)]

theorem MapApply_eq_replay {Key Val ρ : Type} (m : Map Key Val) (r : MappingReceiver Key Val ρ)
    (s : ρ) :
    MapApply m r s
      = replay (MappingReceiverDiscardsPrevious r)
          (m.elems.filterMap (fun p => some (MapChangeCall.Create p.First p.Second))) s := by
  rw [MapApply_eq_foldl]
  generalize m.elems = l
  induction l generalizing s with
  | nil => rfl
  | cons p rest ih => exact ih (r.Put p.First p.Second s)

/-- What a lawful mutable map reads at `k` after a lawful map was applied to it. -/
theorem get_MapApply {Key Val σ : Type} [DecidableEq Key] [Inhabited Val] (m : Map Key Val)
    (hm : m.Lawful) (mm : MutableMap Key Val σ) (hmm : mm.Lawful) (s0 : σ) (k : Key) :
    (mm.view (MapApply m mm.toMappingReceiver s0)).Get k
      = if (m.Get k).2 = true then ((m.Get k).1, true) else (mm.view s0).Get k := by
  rw [MapApply_eq_replay, get_replay_callsFor mm hmm k _ s0 s0 rfl,
    callsFor_filterMap _ _ (fun p c h => by
      simp only [Option.some.injEq] at h
      subst h
      rfl)]
  by_cases h : (m.Get k).2 = true
  · rw [filter_key_of_mem _ hm.visit_once k _ (Lawful.mem_of_get hm k h), if_pos h]
    exact hmm.get_put s0 k _
  · rw [filter_key_of_not_mem _ k (Lawful.not_mem_keys hm k (by simpa using h)), if_neg h]
    rfl

theorem specCallsFor_nil_iff {Key Val : Type} [DecidableEq Val] (left right : Map Key Val)
    (k : Key) : specCallsFor left right k = [] ↔ Mirrors (left.Get k) (right.Get k) := by
  unfold specCallsFor Mirrors
  rcases left.Get k with ⟨lv, lb⟩
  rcases right.Get k with ⟨rv, rb⟩
  cases lb <;> cases rb <;> simp

theorem nil_iff_callsFor_nil {Key Val : Type} [DecidableEq Key]
    (calls : List (MapChangeCall Key Val)) : calls = [] ↔ ∀ k, callsFor k calls = [] := by
  constructor
  · intro h k
    rw [h]
    rfl
  · intro h
    rw [List.eq_nil_iff_forall_not_mem]
    intro c hc
    have hmem : c ∈ callsFor c.key calls := by
      unfold callsFor
      exact List.mem_filter.2 ⟨hc, by simp⟩
    rw [h c.key] at hmem
    cases hmem

/-- C16. `MapApply(m, r)` calls `r.Put(k, v)` once for each entry of `m`, in visit
order, and makes no `Delete` call: the receiver ends in the state those calls
leave and the recording receiver logs exactly those `Put` calls.  When `m` is
lawful and `r` is a lawful mutable map that starts empty and reads as a lawful map
afterwards, then afterwards `r` holds exactly the entries of `m`: every key has
the presence and value it has in `m`, and `MapEqual(m, r)` is true. -/
theorem MapApply_puts_entries {Key Val ρ σ : Type} [DecidableEq Key] [DecidableEq Val]
    [Inhabited Val] (m : Map Key Val) (r : MappingReceiver Key Val ρ) (s : ρ) :
    MapApply m r s
        = replayMapping r (m.elems.map (fun p => MappingCall.Put p.First p.Second)) s
      ∧ (∀ log, MapApply m (mappingRecorder Key Val) log
          = log ++ m.elems.map (fun p => MappingCall.Put p.First p.Second))
      ∧ (∀ (mm : MutableMap Key Val σ) (s0 : σ), m.Lawful → mm.Lawful →
          (∀ k, ((mm.view s0).Get k).2 = false) →
          (mm.view (MapApply m mm.toMappingReceiver s0)).Lawful →
          (∀ k, Mirrors (m.Get k) ((mm.view (MapApply m mm.toMappingReceiver s0)).Get k))
            ∧ MapEqual m (mm.view (MapApply m mm.toMappingReceiver s0)) = true) := by
  refine ⟨?_, ?_, ?_⟩
  · rw [MapApply_eq_foldl, replayMapping_map]
    rfl
  · intro log
    rw [MapApply_eq_foldl]
    generalize m.elems = l
    induction l generalizing log with
    | nil => simp
    | cons p rest ih =>
      simp only [List.foldl_cons, List.map_cons]
      rw [ih]
      simp [mappingRecorder]
  · intro mm s0 hm hmm hempty hfinal
    have hmir : ∀ k, Mirrors (m.Get k)
        ((mm.view (MapApply m mm.toMappingReceiver s0)).Get k) := by
      intro k
      rw [get_MapApply m hm mm hmm s0 k]
      by_cases h : (m.Get k).2 = true
      · rw [if_pos h]
        exact ⟨h, fun _ => rfl⟩
      · rw [if_neg h]
        have h2 : (m.Get k).2 = false := by simpa using h
        exact ⟨h2.trans (hempty k).symm, fun h3 => absurd h3 h⟩
    exact ⟨hmir, (MapEqual_iff_mirrors m _ hm hfinal).2 hmir⟩

/-- C16 at the map `{a:1, b:2, c:3}` applied to an empty list-backed map. -/
theorem MapApply_puts_entries_witness :
    MapApply exampleLeft (mappingRecorder String Int) []
        = [MappingCall.Put "a" 1, MappingCall.Put "b" 2, MappingCall.Put "c" 3]
      ∧ ((∀ k, Mirrors (exampleLeft.Get k)
            (((listMap String Int).view
              (MapApply exampleLeft (listMap String Int).toMappingReceiver [])).Get k))
        ∧ MapEqual exampleLeft ((listMap String Int).view
            (MapApply exampleLeft (listMap String Int).toMappingReceiver [])) = true) :=
  ⟨by decide,
    (MapApply_puts_entries exampleLeft (listMap String Int).toMappingReceiver
      ([] : List (Pair String Int))).2.2 (listMap String Int) [] exampleLeft_lawful
      (listMap_lawful String Int) (fun _ => rfl) (listView_lawful _ (by decide))⟩

/-- C19. For lawful `left` and `right`, `MapEqual(left, right)` returns true if and
only if `MapEnumerateDifferences(left, right, receiver)` makes no call at all on
the receiver: the recording receiver logs nothing.  In that case every receiver
is left in the state it was in. -/
theorem MapEqual_iff_no_calls {Key Val ρ : Type} [DecidableEq Key] [DecidableEq Val]
    (left right : Map Key Val) (hl : left.Lawful) (hr : right.Lawful) :
    (MapEqual left right = true ↔ diffCalls left right = [])
      ∧ (MapEqual left right = true →
          ∀ (receiver : MapChangeReceiver Key Val ρ) (s : ρ),
            MapEnumerateDifferences left right receiver s = s) := by
  have hiff : MapEqual left right = true ↔ diffCalls left right = [] := by
    rw [MapEqual_iff_mirrors left right hl hr, nil_iff_callsFor_nil]
    constructor
    · intro h k
      rw [callsFor_diffCalls left right hl hr, specCallsFor_nil_iff]
      exact h k
    · intro h k
      rw [← specCallsFor_nil_iff, ← callsFor_diffCalls left right hl hr]
      exact h k
  refine ⟨hiff, fun he receiver s => ?_⟩
  rw [MapEnumerateDifferences_eq_replay, ← diffCalls_eq, hiff.1 he]
  rfl

/-- C19 at the specification's scenario: `{a:1, b:2, c:3}` against itself is equal
and yields no call; against `{b:2, c:4, d:5}` it is unequal and yields calls. -/
theorem MapEqual_iff_no_calls_witness :
    (MapEqual exampleLeft exampleLeft = true ∧ diffCalls exampleLeft exampleLeft = [])
      ∧ (MapEqual exampleLeft exampleRight = false ∧ diffCalls exampleLeft exampleRight ≠ [])
      ∧ ((MapEqual exampleLeft exampleRight = true ↔ diffCalls exampleLeft exampleRight = [])
        ∧ (MapEqual exampleLeft exampleRight = true →
            ∀ (receiver : MapChangeReceiver String Int (List (Pair String Int)))
              (s : List (Pair String Int)),
              MapEnumerateDifferences exampleLeft exampleRight receiver s = s)) :=
  ⟨by decide, by decide,
    MapEqual_iff_no_calls exampleLeft exampleRight exampleLeft_lawful exampleRight_lawful⟩

end Placement
